import Mathlib

/-!
The revision-aware repository layer of sensei (`internal/repo`).

A shallow embedding of `internal/repo/context.go`, `internal/repo/repo.go` and
`internal/repo/git.go`, followed by the properties proved about it.

Conventions of the embedding

* Go strings and byte slices are `String`.
* An `error` result is `Option Err` (`none` is `nil`); a `(value, error)` result is
  `Except Err value`; a method with side effects on the repository takes the state and
  returns the new state next to its result.
* `context.Context` is the chain of `WithValue` / `WithCancel` wrappers around a root.
* go-git, go-billy and diffmatchpatch are collaborators outside the repository.  The code
  of `git.go` is embedded over an arbitrary `Engine`, a record of the collaborator calls it
  makes; `memEngine` is one concrete engine (an in-memory work tree, index and object
  store, the setting of `Test_gitRepo`).
-/

namespace Sensei

/-! ## Definitions -/

/-! ### Errors, readers and writers -/

/-- Error values.  `mk` is an error produced by a collaborator, `wrap` is
`fmt.Errorf("<msg>: %w", cause)`, and `nilDeref` stands for the run-time panic raised by
dereferencing a nil pointer (it unwinds through every caller, like an error that each
caller returns at once). -/
inductive Err where
  | mk (msg : String)
  | wrap (msg : String) (cause : Err)
  | nilDeref
deriving DecidableEq, Repr

/-- An `io.Reader` positioned at its start: draining it yields `data` and then ends with
`io.EOF` (`fault = none`) or with the error `fault`. -/
structure Reader where
  data : String
  fault : Option Err := none
deriving DecidableEq, Repr

/-- An `io.Writer`: the bytes accepted so far, and the error every `Write` returns if the
sink is broken (`none` for a `bytes.Buffer`). -/
structure Writer where
  buf : String := ""
  fault : Option Err := none
deriving DecidableEq, Repr

/-- The method `Write` of an `io.Writer`. -/
def Writer.Write (w : Writer) (p : String) : Writer × Option Err :=
  match w.fault with
  | some e => (w, some e)
  | none => ({ w with buf := w.buf ++ p }, none)

/-- The call `io.Copy(w, r)`: what was read is written, the first error stops the copy, a
reader that is empty leads to no `Write`. -/
def ioCopy (w : Writer) (r : Reader) : Writer × Option Err :=
  if r.data = "" then (w, r.fault)
  else
    match w.Write r.data with
    | (w1, some e) => (w1, some e)
    | (w1, none) => (w1, r.fault)

/-- The call `io.ReadAll(r)`: the bytes read and the error, if any. -/
def ioReadAll (r : Reader) : String × Option Err := (r.data, r.fault)

/-! ### Revisions (`repo.go`, `context.go`) -/

/-- The Go type `Commit` (`type Commit string`). -/
abbrev Commit := String

/-- The constant `headRef`. -/
def headRef : Commit := "HEAD"

/-- The method `Commit.IsHead`. -/
def Commit.IsHead (c : Commit) : Bool := c == headRef

/-- The Go type `DiffOption`. -/
structure DiffOption where
  From : Commit := ""
  To : Commit := ""
deriving DecidableEq, Repr

/-- The method `DiffOption.IsZero`. -/
def DiffOption.IsZero (d : DiffOption) : Bool := d.From == "" && d.To == ""

/-! ### Contexts -/

/-- Keys of context values.  `ctxKey` is the unexported key type of package `repo`;
`foreign` is a key of any other type (keys of different types never compare equal). -/
inductive Key where
  | ctxKey (name : String)
  | foreign (type name : String)
deriving DecidableEq, Repr

/-- The constant `commitKey`. -/
def commitKey : Key := Key.ctxKey "commit"

/-- The constant `diffKey`. -/
def diffKey : Key := Key.ctxKey "diff"

/-- Values stored in a context (`any`), by dynamic type. -/
inductive Any where
  | commit (c : Commit)
  | diffOption (d : DiffOption)
  | other (repr : String)
deriving DecidableEq, Repr

/-- A `context.Context`: a root, or a wrapper around a parent. -/
inductive Context where
  | background
  | todo
  | withValue (parent : Context) (key : Key) (val : Any)
  | withCancel (parent : Context)
deriving DecidableEq, Repr

/-- The method `ctx.Value(key)`: the value of the nearest enclosing `WithValue` with that
key, `none` (nil) at the root. -/
def Context.Value : Context → Key → Option Any
  | .background, _ => none
  | .todo, _ => none
  | .withValue parent k v, key => if k = key then some v else parent.Value key
  | .withCancel parent, key => parent.Value key

/-- The function `WithCommit`. -/
def WithCommit (ctx : Context) (commit : Commit) : Context :=
  Context.withValue ctx commitKey (Any.commit commit)

/-- The function `CommitFromContext`. -/
def CommitFromContext (ctx : Context) : Commit :=
  match ctx.Value commitKey with
  | some (Any.commit commit) => commit
  | _ => headRef

/-- The function `WithDiff`. -/
def WithDiff (ctx : Context) (src dst : Commit) : Context :=
  Context.withValue ctx diffKey (Any.diffOption { From := src, To := dst })

/-- The function `DiffFromContext`. -/
def DiffFromContext (ctx : Context) : DiffOption :=
  match ctx.Value diffKey with
  | some (Any.diffOption diff) => diff
  | _ => {}

/-- One step deriving a context from its parent: the two attachments of package `repo`,
`context.WithCancel`, and a `context.WithValue` of another package (under a key of
another type). -/
inductive Derivation where
  | commit (c : Commit)
  | diff (src dst : Commit)
  | cancel
  | foreign (type name : String) (val : Any)
deriving DecidableEq, Repr

/-- Applies one derivation step to a context. -/
def Derivation.apply (ctx : Context) : Derivation → Context
  | .commit c => WithCommit ctx c
  | .diff src dst => WithDiff ctx src dst
  | .cancel => Context.withCancel ctx
  | .foreign ty name val => Context.withValue ctx (Key.foreign ty name) val

/-- The context obtained from `ctx` by the steps `ds`, the first applied first (so the
last step of `ds` is the innermost wrapper). -/
def derive (ctx : Context) (ds : List Derivation) : Context :=
  ds.foldl Derivation.apply ctx

/-- The revision of the last `commit` step of `ds`, if there is one. -/
def nearestCommit : List Derivation → Option Commit
  | [] => none
  | d :: ds =>
    match nearestCommit ds with
    | some c => some c
    | none =>
      match d with
      | .commit c => some c
      | _ => none

/-- The range of the last `diff` step of `ds`, if there is one. -/
def nearestDiff : List Derivation → Option DiffOption
  | [] => none
  | d :: ds =>
    match nearestDiff ds with
    | some r => some r
    | none =>
      match d with
      | .diff src dst => some { From := src, To := dst }
      | _ => none

/-! ### Object ids (`plumbing.Hash`) -/

/-- The digits of `hex.EncodeToString`. -/
def hextable : List Char :=
  ['0', '1', '2', '3', '4', '5', '6', '7', '8', '9', 'a', 'b', 'c', 'd', 'e', 'f']

/-- The hexadecimal digit of a value below 16. -/
def hexDigit (n : Nat) : Char := hextable.getD n '0'

/-- The value of a hexadecimal digit, both cases accepted (`hex.DecodeString`). -/
def fromHexChar (c : Char) : Option Nat :=
  if '0' ≤ c ∧ c ≤ '9' then some (c.toNat - '0'.toNat)
  else if 'a' ≤ c ∧ c ≤ 'f' then some (c.toNat - 'a'.toNat + 10)
  else if 'A' ≤ c ∧ c ≤ 'F' then some (c.toNat - 'A'.toNat + 10)
  else none

/-- The function `hex.EncodeToString` on a byte sequence. -/
def hexEncode : List (Fin 256) → List Char
  | [] => []
  | b :: bs => hexDigit (b.val / 16) :: hexDigit (b.val % 16) :: hexEncode bs

/-- The bytes `hex.DecodeString` returns: the pairs of digits decoded before the first
invalid character or the odd end (its error is what `NewHash` discards). -/
def hexDecode : List Char → List (Fin 256)
  | p :: q :: rest =>
    match fromHexChar p, fromHexChar q with
    | some a, some b => Fin.ofNat (a * 16 + b) :: hexDecode rest
    | _, _ => []
  | _ => []

/-- The Go type `plumbing.Hash`, an array of 20 bytes. -/
def Hash : Type := { l : List (Fin 256) // l.length = 20 }

instance : DecidableEq Hash := inferInstanceAs (DecidableEq { l : List (Fin 256) // l.length = 20 })

/-- The method `Hash.String`: the 40 hexadecimal digits of the id. -/
def Hash.String (h : Hash) : String := String.mk (hexEncode h.val)

/-- The function `plumbing.NewHash`: the decoded bytes copied into a zeroed array of 20
bytes. -/
def NewHash (s : String) : Hash :=
  ⟨((hexDecode s.data) ++ List.replicate 20 (0 : Fin 256)).take 20, by simp⟩

/-- The function `gitCommitHash`. -/
def gitCommitHash (commit : Commit) : Hash := NewHash commit

/-! ### The collaborators: go-git, go-billy, diffmatchpatch -/

/-- The Go type `git.StatusCode`. -/
inductive StatusCode where
  | Unmodified
  | Untracked
  | Modified
  | Added
  | Deleted
  | Renamed
  | Copied
  | UpdatedButUnmerged
deriving DecidableEq, Repr

/-- The Go type `git.FileStatus`. -/
structure FileStatus where
  Staging : StatusCode
  Worktree : StatusCode
deriving DecidableEq, Repr

/-- The Go type `git.Status` (`map[string]*FileStatus`); the order of the list is the
order in which a `range` over the map happens to visit it. -/
abbrev Status := List (String × FileStatus)

/-- The method `Status.IsClean` of go-git. -/
def Status.IsClean (s : Status) : Bool :=
  s.all fun e => e.2.Worktree == StatusCode.Unmodified && e.2.Staging == StatusCode.Unmodified

/-- An `os.FileInfo`, as far as `walkFs` looks at it. -/
structure FileInfo where
  Name : String
  IsDir : Bool
deriving DecidableEq, Repr

/-- A `billy.Filesystem`, as far as `walkFs` uses it: the method `ReadDir`. -/
structure Filesystem where
  ReadDir : String → Except Err (List FileInfo)

/-- An `object.File` of a commit: its name and what `Reader()` returns. -/
structure FileObj where
  Name : String
  Reader : Except Err Reader

/-- An `object.FileIter`: the files `ForEach` visits, and the error it ends with, if
any. -/
structure FileIter where
  items : List FileObj
  fault : Option Err := none

/-- An `object.Commit`, as far as `git.go` uses it: its id and the methods `File` and
`Files`. -/
structure CommitObj where
  Hash : Hash
  File : String → Except Err FileObj
  Files : Except Err FileIter

/-- An `object.Patch`: the method `Encode`. -/
structure PatchObj where
  Encode : Writer → Writer × Option Err

/-- The Go type `object.Signature`, with the time as a number. -/
structure Signature where
  Name : String
  When : Nat
deriving DecidableEq, Repr

/-- The Go type `git.CommitOptions`, the fields `git.go` sets. -/
structure CommitOptions where
  All : Bool
  Author : Signature
deriving DecidableEq, Repr

/-- An open `billy.File` returned by `Create`. -/
abbrev Handle := String

/-- The calls `git.go` makes into go-git, go-billy and diffmatchpatch, over a repository
state `σ`.  Calls that only observe the repository return their result; calls that change
it return the new state as well (a failing call may have changed the state). -/
structure Engine (σ : Type) where
  /-- `repo.Worktree()`: its error. -/
  Worktree : σ → Option Err
  /-- `repo.Head()` followed by `.Hash()`. -/
  Head : σ → Except Err Hash
  /-- `repo.CommitObject(hash)`. -/
  CommitObject : σ → Hash → Except Err CommitObj
  /-- `fromCommit.Patch(toCommit)`. -/
  Patch : CommitObj → CommitObj → Except Err PatchObj
  /-- `worktree.Status()`. -/
  Status : σ → Except Err Status
  /-- `fs.Open(path)`, the file seen as the reader `io.Copy` drains. -/
  Open : σ → String → Except Err Reader
  /-- `fs.ReadDir(path)`. -/
  ReadDir : σ → String → Except Err (List FileInfo)
  /-- `fs.Remove(path)`. -/
  Remove : σ → String → Option Err × σ
  /-- `fs.Create(path)`. -/
  Create : σ → String → Except Err Handle × σ
  /-- `file.Write(content)`. -/
  Write : σ → Handle → String → Option Err × σ
  /-- `file.Close()`. -/
  Close : σ → Handle → Option Err × σ
  /-- `tree.Add(path)`. -/
  Add : σ → String → Option Err × σ
  /-- `tree.Commit(message, options)`. -/
  Commit : σ → String → CommitOptions → Except Err Hash × σ
  /-- `patcher.PatchToText(patcher.PatchMake(diff.Do(src, dst)))`. -/
  PatchText : String → String → String

/-! ### Paths (`path/filepath`) -/

/-- One step of the component scan of `filepath.Clean`: empty components and `.` are
dropped, `..` removes the component before it (and is kept when a relative path has
nothing left to remove, dropped at the root), anything else is kept. -/
def cleanStep (rooted : Bool) (out : List (List Char)) (c : List Char) : List (List Char) :=
  if c = [] ∨ c = ['.'] then out
  else if c = ['.', '.'] then
    match out.getLast? with
    | none => if rooted then out else out ++ [c]
    | some l => if l = ['.', '.'] then out ++ [c] else out.dropLast
  else out ++ [c]

/-- The function `filepath.Clean` (separator `/`), on the characters of the path. -/
def cleanChars (p : List Char) : List Char :=
  if p = [] then ['.']
  else
    let rooted := p.head? == some '/'
    let out := (p.splitOn '/').foldl (cleanStep rooted) []
    let body := ['/'].intercalate out
    if rooted then '/' :: body
    else if out = [] then ['.'] else body

/-- The function `filepath.Join` of two elements: empty elements are ignored and the rest
is joined by `/` and cleaned; the result is empty when both are empty. -/
def filepathJoin (a b : String) : String :=
  if a = "" then (if b = "" then "" else String.mk (cleanChars b.data))
  else if b = "" then String.mk (cleanChars a.data)
  else String.mk (cleanChars (a.data ++ '/' :: b.data))

/-! ### `git.go` -/

/-- The constant `author`. -/
def author : String := "sensei"

/-- The function `gitSignature`. -/
def gitSignature (now : Nat) : Signature := { Name := author, When := now }

/-- The loop of `walkFs`: `queue` is the queue of directories, `acc` the state the
callback `f` has built.  The result is `none` when `fuel` iterations did not empty the
queue. -/
def walkFsLoop {α : Type} (fs : Filesystem) (f : α → String → α) :
    Nat → List String → α → Option (α × Option Err)
  | _, [], acc => some (acc, none)
  | 0, _ :: _, _ => none
  | fuel + 1, current :: queue, acc =>
    match fs.ReadDir current with
    | .error err => some (acc, some err)
    | .ok infos =>
      let next := infos.foldl
        (fun (st : List String × α) info =>
          let path := filepathJoin current info.Name
          if info.IsDir then (st.1 ++ [path], st.2) else (st.1, f st.2 path))
        (queue, acc)
      walkFsLoop fs f fuel next.1 next.2

/-- The function `walkFs`: the state left by the calls of the callback and the error
returned. -/
def walkFs {α : Type} (fs : Filesystem) (root : String) (f : α → String → α) (acc : α)
    (fuel : Nat) : Option (α × Option Err) :=
  walkFsLoop fs f fuel [root] acc

/-- The Go type `readFunc`, for a sink that starts as given. -/
abbrev readFunc := Context → String → Writer → Writer × Option Err

/-- The function `readContent`. -/
def readContent (ctx : Context) (path : String) (f : readFunc) : String × Option Err :=
  let r := f ctx path {}
  (r.1.buf, r.2)

/-- The result type of the listings: a slice of paths. -/
abbrev Paths := List String

section gitRepo

variable {σ : Type} (E : Engine σ)

/-- The method `gitRepo.fs`: `worktree.Filesystem` is evaluated before the error is
looked at, so an error of `Worktree()` (a nil work tree) is a nil dereference. -/
def gitRepo.fs (g : σ) : Except Err Filesystem :=
  match E.Worktree g with
  | some _ => .error Err.nilDeref
  | none => .ok { ReadDir := E.ReadDir g }

/-- The method `gitRepo.commitObject`. -/
def gitRepo.commitObject (g : σ) (commit : Commit) : Except Err CommitObj :=
  match E.CommitObject g (gitCommitHash commit) with
  | .error err => .error (Err.wrap ("get commit object " ++ commit) err)
  | .ok o => .ok o

/-- The method `gitRepo.readFromWorktree`. -/
def gitRepo.readFromWorktree (g : σ) (path : String) (w : Writer) : Writer × Option Err :=
  match fs E g with
  | .error err => (w, some err)
  | .ok _ =>
    match E.Open g path with
    | .error err => (w, some err)
    | .ok f => ioCopy w f

/-- The method `gitRepo.readFromCommit`. -/
def gitRepo.readFromCommit (g : σ) (commit : Commit) (path : String) (w : Writer) :
    Writer × Option Err :=
  match commitObject E g commit with
  | .error err => (w, some err)
  | .ok o =>
    match o.File path with
    | .error err => (w, some err)
    | .ok blob =>
      match blob.Reader with
      | .error err => (w, some err)
      | .ok f => ioCopy w f

/-- The method `gitRepo.Read`. -/
def gitRepo.Read (g : σ) (ctx : Context) (path : String) (w : Writer) : Writer × Option Err :=
  let commit := CommitFromContext ctx
  if commit.IsHead then readFromWorktree E g path w
  else readFromCommit E g commit path w

/-- The method `gitRepo.status`. -/
def gitRepo.status (g : σ) : Except Err Status :=
  match E.Worktree g with
  | some err => .error err
  | none => E.Status g

/-- The method `gitRepo.Head`. -/
def gitRepo.Head (g : σ) (ctx : Context) (path : String) (w : Writer) : Writer × Option Err :=
  match E.Head g with
  | .error err => (w, some err)
  | .ok head =>
    let commit : Commit := head.String
    let readCtx := Context.withCancel ctx
    Read E g (WithCommit readCtx commit) path w

/-- The method `gitRepo.diffFromWorktree`; the result is `(from, to, err)`. -/
def gitRepo.diffFromWorktree (g : σ) (ctx : Context) (path : String) :
    String × String × Option Err :=
  match readContent ctx path (Head E g) with
  | (src, some err) => (src, "", some err)
  | (src, none) =>
    let r := readContent ctx path (Read E g)
    (src, r.1, r.2)

/-- The method `gitRepo.diffFromCommits`; the result is `(from, to, err)`. -/
def gitRepo.diffFromCommits (g : σ) (opt : DiffOption) (path : String) :
    String × String × Option Err :=
  match readContent (WithCommit Context.background opt.From) path (Read E g) with
  | (src, some err) => (src, "", some err)
  | (src, none) =>
    let r := readContent (WithCommit Context.background opt.To) path (Read E g)
    (src, r.1, r.2)

/-- The method `gitRepo.Diff`. -/
def gitRepo.Diff (g : σ) (ctx : Context) (path : String) : String × String × Option Err :=
  let opt := DiffFromContext ctx
  if !opt.IsZero then diffFromCommits E g opt path
  else diffFromWorktree E g ctx path

/-- The loop of `gitRepo.diffPatchFromWorktree` over the entries of the status: the
slice `diffs` after the loop, or the error that left it. -/
def gitRepo.patchEntries (g : σ) (ctx : Context) : Status → List String → Except Err (List String)
  | [], diffs => .ok diffs
  | (path, fileStatus) :: rest, diffs =>
    match fileStatus.Staging with
    | .Untracked | .Added =>
      match readContent ctx path (Read E g) with
      | (_, some err) => .error err
      | (dst, none) => patchEntries g ctx rest (diffs ++ [path, E.PatchText "" dst])
    | .Modified =>
      match Diff E g ctx path with
      | (_, _, some err) => .error err
      | (src, dst, none) => patchEntries g ctx rest (diffs ++ [path, E.PatchText src dst])
    | _ => patchEntries g ctx rest diffs

/-- The method `gitRepo.diffPatchFromWorktree`. -/
def gitRepo.diffPatchFromWorktree (g : σ) (ctx : Context) (w : Writer) : Writer × Option Err :=
  match status E g with
  | .error err => (w, some err)
  | .ok st =>
    if st.IsClean then (w, none)
    else
      match patchEntries E g ctx st [] with
      | .error err => (w, some err)
      | .ok diffs => w.Write ("\n".intercalate diffs)

/-- The method `gitRepo.diffPatchCommits`. -/
def gitRepo.diffPatchCommits (g : σ) (opt : DiffOption) (w : Writer) : Writer × Option Err :=
  match commitObject E g opt.From with
  | .error err => (w, some err)
  | .ok fromCommit =>
    match commitObject E g opt.To with
    | .error err => (w, some err)
    | .ok toCommit =>
      match E.Patch fromCommit toCommit with
      | .error err => (w, some err)
      | .ok patch => patch.Encode w

/-- The method `gitRepo.DiffPatch`. -/
def gitRepo.DiffPatch (g : σ) (ctx : Context) (w : Writer) : Writer × Option Err :=
  let diffOpt := DiffFromContext ctx
  if diffOpt.IsZero then diffPatchFromWorktree E g ctx w
  else diffPatchCommits E g diffOpt w

/-- The method `gitRepo.listFromWorktree`; `none` when the walk ran out of fuel. -/
def gitRepo.listFromWorktree (g : σ) (fuel : Nat) : Option (Except Err (List String)) :=
  match fs E g with
  | .error err => some (.error err)
  | .ok wfs =>
    match walkFs wfs "." (fun (paths : List String) name => paths ++ [name]) [] fuel with
    | none => none
    | some (_, some err) => some (.error err)
    | some (paths, none) => some (.ok paths)

/-- The method `gitRepo.listFromCommit`. -/
def gitRepo.listFromCommit (g : σ) (commit : Commit) : Except Err (List String) :=
  match commitObject E g commit with
  | .error err => .error err
  | .ok o =>
    match o.Files with
    | .error err => .error err
    | .ok iter =>
      let files := iter.items.foldl (fun (files : List String) f => files ++ [f.Name]) []
      match iter.fault with
      | some err => .error err
      | none => .ok files

/-- The method `gitRepo.add`. -/
def gitRepo.add (g : σ) (path : String) (content : String) : Option Err × σ :=
  if content.length = 0 then E.Remove g path
  else
    match E.Create g path with
    | (.error err, g1) => (some err, g1)
    | (.ok file, g1) =>
      match E.Write g1 file content with
      | (some err, g2) => (some err, g2)
      | (none, g2) =>
        match E.Close g2 file with
        | (some err, g3) => (some err, g3)
        | (none, g3) =>
          match E.Add g3 path with
          | (some err, g4) => (some err, g4)
          | (none, g4) => (none, g4)

/-- The Go interface `File` (a named stream): its name and the reader behind it. -/
structure File where
  Name : String
  body : Reader
deriving DecidableEq, Repr

/-- A file after `io.ReadAll` drained it. -/
def File.drained (f : File) : File := { f with body := { data := "", fault := f.body.fault } }

/-- The method `gitRepo.stage`: the error, the repository state, and the streams as the
call leaves them (the drained ones drained, the others untouched). -/
def gitRepo.stage : σ → List File → Option Err × σ × List File
  | g, [] => (none, g, [])
  | g, f :: rest =>
    let path := f.Name
    match ioReadAll f.body with
    | (_, some err) => (some err, g, f.drained :: rest)
    | (b, none) =>
      match gitRepo.add E g path b with
      | (some err, g1) => (some err, g1, f.drained :: rest)
      | (none, g1) =>
        let r := gitRepo.stage g1 rest
        (r.1, r.2.1, f.drained :: r.2.2)

/-- The method `gitRepo.Add`. -/
def gitRepo.Add (g : σ) (_ctx : Context) (files : List File) : Option Err × σ × List File :=
  match E.Worktree g with
  | some err => (some err, g, files)
  | none => gitRepo.stage E g files

/-- The method `gitRepo.Commit`; `now` is the reading of `time.Now()`. -/
def gitRepo.Commit (g : σ) (_ctx : Context) (now : Nat) (message : String) :
    Except Err Commit × σ :=
  match E.Worktree g with
  | some err => (.error err, g)
  | none =>
    match E.Commit g message { All := true, Author := gitSignature now } with
    | (.error err, g1) => (.error err, g1)
    | (.ok hash, g1) => (.ok hash.String, g1)

/-- The method `gitRepo.List`; `none` when the walk of the work tree ran out of fuel. -/
def gitRepo.List (g : σ) (ctx : Context) (fuel : Nat) : Option (Except Err Paths) :=
  let commit := CommitFromContext ctx
  if !commit.IsHead then some (listFromCommit E g commit)
  else listFromWorktree E g fuel

end gitRepo

/-! ### An in-memory engine

A model of go-git over `memfs` and `memory.NewStorage()`, the setting of `Test_gitRepo`.
The working copy and the index are tables from paths to contents, keyed by the path as it
was written (the engine neither cleans a path nor keeps directories of its own, so it
stands for go-git on clean relative paths).  A snapshot records the index; a file of a
snapshot is found by walking the components of its path, so the read of a path that is
not clean, or that lies below a recorded file, fails.  The object store maps ids to
commits (a later object with the same id replaces the earlier one, as in a Go map), and
the id of a commit is computed by a function `hasher` about which nothing is assumed. -/

/-- A table from paths to contents. -/
abbrev Table := List (String × String)

/-- Sets the entry of `k` to `v`. -/
def Table.upsert : Table → String → String → Table
  | [], k, v => [(k, v)]
  | (k1, v1) :: rest, k, v =>
    if k1 = k then (k, v) :: rest else (k1, v1) :: Table.upsert rest k v

/-- Removes the entry of `k`. -/
def Table.erase (m : Table) (k : String) : Table := m.filter fun e => e.1 ≠ k

/-- Extensional equality of two tables. -/
def Table.same (a b : Table) : Bool :=
  (a.all fun e => b.lookup e.1 == some e.2) && (b.all fun e => a.lookup e.1 == some e.2)

/-- A component of a clean path: not empty, neither `.` nor `..`. -/
def validComponent (c : List Char) : Bool := c ≠ [] && c ≠ ['.'] && c ≠ ['.', '.']

/-- A clean relative path: its components, separated by single `/`, are all valid (so it
is not empty, not rooted, has no doubled or trailing separator and no `.` or `..`). -/
def isCleanPath (p : String) : Bool := (p.data.splitOn '/').all validComponent

/-- The directories above a path: its prefixes that end just before a separator. -/
def ancestors (p : String) : List String :=
  (List.range p.data.length).filterMap fun i =>
    if p.data.getD i ' ' = '/' then some (String.mk (p.data.take i)) else none

/-- A commit of the object store: the tree it records and its metadata. -/
structure Snapshot where
  tree : Table
  parent : Option Hash
  message : String
  author : Signature

/-- The state of the in-memory repository: work tree, index, object store, head. -/
structure GitState where
  files : Table := []
  index : Table := []
  objects : List (Hash × Snapshot) := []
  head : Option Hash := none

/-- The tree of the head commit (empty before the first commit). -/
def GitState.headTree (s : GitState) : Table :=
  match s.head with
  | none => []
  | some h =>
    match s.objects.lookup h with
    | none => []
    | some snap => snap.tree

/-- The path names a file of the tree: it is clean and no directory above it is itself
recorded as a file (the walk from the root finds a directory at every component but the
last). -/
def Table.reaches (tree : Table) (path : String) : Bool :=
  isCleanPath path && (ancestors path).all fun a => (tree.lookup a).isNone

/-- The files of a tree that a walk from the root reaches, as `object.File` values. -/
def Table.fileObjs (tree : Table) : List FileObj :=
  (tree.filter fun e => tree.reaches e.1).map fun e =>
    { Name := e.1, Reader := .ok { data := e.2 } }

/-- The `object.Commit` of a stored commit: `File` walks the tree along the components
of the path, `Files` visits the files such a walk reaches. -/
def Snapshot.object (h : Hash) (snap : Snapshot) : CommitObj where
  Hash := h
  File := fun path =>
    if snap.tree.reaches path then
      match snap.tree.lookup path with
      | none => .error (Err.mk "file not found")
      | some c => .ok { Name := path, Reader := .ok { data := c } }
    else .error (Err.mk "file not found")
  Files := .ok { items := snap.tree.fileObjs }

/-- The status of one path: the head tree against the index (`Staging`) and the index
against the work tree (`Worktree`). -/
def GitState.fileStatus (s : GitState) (path : String) : FileStatus :=
  let staging :=
    match s.headTree.lookup path, s.index.lookup path with
    | none, none => StatusCode.Unmodified
    | none, some _ => StatusCode.Added
    | some _, none => StatusCode.Deleted
    | some a, some b => if a = b then StatusCode.Unmodified else StatusCode.Modified
  match s.index.lookup path, s.files.lookup path with
  | none, none => { Staging := staging, Worktree := StatusCode.Unmodified }
  | none, some _ => { Staging := StatusCode.Untracked, Worktree := StatusCode.Untracked }
  | some _, none => { Staging := staging, Worktree := StatusCode.Deleted }
  | some a, some b =>
    { Staging := staging,
      Worktree := if a = b then StatusCode.Unmodified else StatusCode.Modified }

/-- The status report: the paths whose status is not unmodified on both sides. -/
def GitState.status (s : GitState) : Status :=
  let paths := ((s.headTree.map Prod.fst) ++ (s.index.map Prod.fst) ++
    (s.files.map Prod.fst)).eraseDups
  (paths.map fun p => (p, s.fileStatus p)).filter fun e =>
    !(e.2.Staging == StatusCode.Unmodified && e.2.Worktree == StatusCode.Unmodified)

/-- The entries of directory `dir` of the work tree (`"."` is the root). -/
def GitState.readDir (s : GitState) (dir : String) : List FileInfo :=
  let base := if dir = "." then [] else dir.data.splitOn '/'
  let below := s.files.filterMap fun e =>
    let comps := e.1.data.splitOn '/'
    if base.isPrefixOf comps ∧ base.length < comps.length then
      some { Name := String.mk (comps.getD base.length []),
             IsDir := base.length + 1 < comps.length }
    else none
  below.eraseDups

/-- The index after `git add -u`: every tracked path takes the content of the work tree,
or leaves the index when the work tree has no such file. -/
def GitState.autoAdd (s : GitState) : Table :=
  s.index.filterMap fun e =>
    match s.files.lookup e.1 with
    | none => none
    | some c => some (e.1, c)

/-- The content of a file of a commit (empty when its blob cannot be opened). -/
def FileObj.content (f : FileObj) : String :=
  match f.Reader with
  | .ok r => r.data
  | .error _ => ""

/-- The text of the patch between the files of two commits: for every file of the second
commit that is new or changed, and then for every file of the first commit that is gone,
the name and the rendered patch of its content. -/
def treePatch (patchText : String → String → String) (src dst : List FileObj) : String :=
  let changed := dst.filterMap fun f =>
    match src.find? fun o => o.Name == f.Name with
    | some o => if o.content = f.content then none else some [f.Name, patchText o.content f.content]
    | none => some [f.Name, patchText "" f.content]
  let removed := src.filterMap fun o =>
    if dst.any fun f => f.Name == o.Name then none else some [o.Name, patchText o.content ""]
  "\n".intercalate (changed ++ removed).flatten

/-- Modelled from the spec: the snapshot store engine (go-git over go-billy, outside the
repository), as the spec describes its contract: reads of the working copy and of a
snapshot fail for a path that is absent, the status compares head tree, index and working
copy, `tree.Add` stages the content of the working copy (or the absence of the file), and
`tree.Commit` with `All` stages every tracked path first, fails when there is nothing to
commit (the index records what the head records), and otherwise stores the index as a new
snapshot that becomes the head.  Paths of the working copy are taken as written. -/
def memEngine (hasher : Snapshot → Hash) (patchText : String → String → String) :
    Engine GitState where
  Worktree := fun _ => none
  Head := fun s =>
    match s.head with
    | none => .error (Err.mk "reference not found")
    | some h => .ok h
  CommitObject := fun s h =>
    match s.objects.lookup h with
    | none => .error (Err.mk "object not found")
    | some snap => .ok (snap.object h)
  Patch := fun a b =>
    match a.Files, b.Files with
    | .ok fa, .ok fb =>
      .ok { Encode := fun w => w.Write (treePatch patchText fa.items fb.items) }
    | .error err, _ => .error err
    | _, .error err => .error err
  Status := fun s => .ok s.status
  Open := fun s path =>
    match s.files.lookup path with
    | none => .error (Err.mk "file does not exist")
    | some c => .ok { data := c }
  ReadDir := fun s dir => .ok (s.readDir dir)
  Remove := fun s path =>
    match s.files.lookup path with
    | none => (some (Err.mk "file does not exist"), s)
    | some _ => (none, { s with files := s.files.erase path })
  Create := fun s path => (.ok path, { s with files := s.files.upsert path "" })
  Write := fun s file content =>
    match s.files.lookup file with
    | none => (some (Err.mk "file does not exist"), s)
    | some old => (none, { s with files := s.files.upsert file (old ++ content) })
  Close := fun s _ => (none, s)
  Add := fun s path =>
    match s.files.lookup path with
    | some c => (none, { s with index := s.index.upsert path c })
    | none =>
      match s.index.lookup path with
      | some _ => (none, { s with index := s.index.erase path })
      | none => (some (Err.mk "entry not found"), s)
  Commit := fun s message opts =>
    let index := if opts.All then s.autoAdd else s.index
    let s1 := { s with index := index }
    if Table.same index s.headTree then
      (.error (Err.mk "cannot create empty commit: clean working tree"), s1)
    else
      let snap : Snapshot :=
        { tree := index, parent := s.head, message := message, author := opts.Author }
      let h := hasher snap
      (.ok h, { s1 with objects := (h, snap) :: s1.objects, head := some h })
  PatchText := patchText

/-! ### Reference notions used to state the properties -/

/-- The snapshot read of `path` at the commit with id `h`: the content the commit records
for `path` copied to the sink, or the error of the first step that fails (the lookup of
the commit, wrapped as `commitObject` wraps it, the lookup of the file, the opening of
the blob, the copy). -/
def snapshotRead {σ : Type} (E : Engine σ) (g : σ) (h : Hash) (path : String) (w : Writer) :
    Writer × Option Err :=
  match E.CommitObject g h with
  | .error err => (w, some (Err.wrap ("get commit object " ++ h.String) err))
  | .ok o =>
    match o.File path with
    | .error err => (w, some err)
    | .ok blob =>
      match blob.Reader with
      | .error err => (w, some err)
      | .ok f => ioCopy w f

/-- The read of one side of a diff as `Read` performs it for the revision `c`: the live
working copy for the sentinel, the snapshot named `c` otherwise. -/
def sideRead {σ : Type} (E : Engine σ) (g : σ) (c : Commit) (path : String) :
    Writer × Option Err :=
  if c.IsHead then gitRepo.readFromWorktree E g path {}
  else gitRepo.readFromCommit E g c path {}

/-- The result `(from, to, err)` of a diff whose two sides were read with the results
`src` and `dst`: the second side counts only if the first read succeeded. -/
def diffResult (src dst : Writer × Option Err) : String × String × Option Err :=
  match src.2 with
  | some err => (src.1.buf, "", some err)
  | none => (src.1.buf, dst.1.buf, dst.2)

/-- The repository state after every entry of `files` was staged in order, whatever the
results of the stagings. -/
def applyAll {σ : Type} (E : Engine σ) (g : σ) (files : List File) : σ :=
  files.foldl (fun g f => (gitRepo.add E g f.Name f.body.data).2) g

/-- Every entry of `files` is read without error and staged without error, each on the
state the entries before it left. -/
def stageOk {σ : Type} (E : Engine σ) : σ → List File → Bool
  | _, [] => true
  | g, f :: rest =>
    f.body.fault == none && (gitRepo.add E g f.Name f.body.data).1 == none &&
      stageOk E (gitRepo.add E g f.Name f.body.data).2 rest

/-! ### Example repositories -/

/-- An id made of twenty bytes `n`. -/
def exHash (n : Nat) : Hash := ⟨List.replicate 20 (Fin.ofNat n), by simp⟩

/-- An id function for the examples: the number of files of the tree. -/
def exHasher (snap : Snapshot) : Hash := exHash snap.tree.length

/-- A patch renderer for the examples. -/
def exPatchText (src dst : String) : String := "-" ++ src ++ "+" ++ dst

/-- The in-memory engine of the examples. -/
def exEngine : Engine GitState := memEngine exHasher exPatchText

/-- The two files of the first step of `repoTest`. -/
def exFiles : List File :=
  [{ Name := "test.txt", body := { data := "something" } },
   { Name := "dir/test.txt", body := { data := "something" } }]

/-- The repository after the first step of `repoTest`: both files added to the empty
repository and committed. -/
def exCommitted : GitState :=
  (gitRepo.Commit exEngine (gitRepo.Add exEngine {} Context.todo exFiles).2.1
    Context.todo 0 "change 0").2

/-- The repository `exCommitted` after `test.txt` was rewritten in the working copy
(without staging). -/
def exDirty : GitState :=
  { exCommitted with files := exCommitted.files.upsert "test.txt" "changed" }

/-- An engine whose index cannot be written: the in-memory engine, except that every
`tree.Add` fails (as with a locked or read-only index) and leaves the state as it is. -/
def lockedEngine : Engine GitState :=
  { exEngine with Add := fun s _ => (some (Err.mk "index locked"), s) }

/-! ### Directory trees -/

/-- The content of a directory: the sequence of its entries, in the order `ReadDir`
lists them; an entry is a file (anything that is not a directory) or a directory with its
own content. -/
inductive Listing where
  | nil
  | file (name : String) (rest : Listing)
  | dir (name : String) (content : Listing) (rest : Listing)
deriving DecidableEq, Repr

/-- The `os.FileInfo` values of the entries of a directory. -/
def Listing.infos : Listing → List FileInfo
  | .nil => []
  | .file n rest => { Name := n, IsDir := false } :: rest.infos
  | .dir n _ rest => { Name := n, IsDir := true } :: rest.infos

/-- The names of the entries of a directory. -/
def Listing.names : Listing → List String
  | .nil => []
  | .file n rest => n :: rest.names
  | .dir n _ rest => n :: rest.names

/-- The number of directories below a directory, at any depth. -/
def Listing.dirCount : Listing → Nat
  | .nil => 0
  | .file _ rest => rest.dirCount
  | .dir _ content rest => 1 + content.dirCount + rest.dirCount

/-- The non-directory entries below the directory with the components `cs`, at any
depth, as sequences of components from the root. -/
def Listing.allFiles (cs : List String) : Listing → List (List String)
  | .nil => []
  | .file n rest => (cs ++ [n]) :: rest.allFiles cs
  | .dir n content rest => content.allFiles (cs ++ [n]) ++ rest.allFiles cs

/-- The directories below the directory with the components `cs`, at any depth, as
sequences of components from the root. -/
def Listing.allDirs (cs : List String) : Listing → List (List String)
  | .nil => []
  | .file _ rest => rest.allDirs cs
  | .dir n content rest => (cs ++ [n]) :: (content.allDirs (cs ++ [n]) ++ rest.allDirs cs)

/-- A name a directory entry can have: not empty, without separator, neither `.` nor
`..`. -/
def validName (n : String) : Bool :=
  n.data ≠ [] && !n.data.contains '/' && n.data ≠ ['.'] && n.data ≠ ['.', '.']

/-- Every entry of the tree has a valid name, and no directory has two entries with the
same name. -/
def Listing.wellFormed : Listing → Bool
  | .nil => true
  | .file n rest => validName n && !rest.names.contains n && rest.wellFormed
  | .dir n content rest =>
    validName n && !rest.names.contains n && content.wellFormed && rest.wellFormed

/-- The root-relative path of a sequence of components: `.` for the root, the components
joined by `/` otherwise. -/
def pathStr (cs : List String) : String :=
  if cs = [] then "." else String.mk (['/'].intercalate (cs.map String.data))

/-- Every directory among the entries of the directory `cs`, at any depth, is read by
`ReadDir` without error and with its entries as the result. -/
def readsBelow (fs : Filesystem) (cs : List String) : Listing → Prop
  | .nil => True
  | .file _ rest => readsBelow fs cs rest
  | .dir n content rest =>
    (fs.ReadDir (pathStr (cs ++ [n])) = .ok content.infos ∧ readsBelow fs (cs ++ [n]) content) ∧
      readsBelow fs cs rest

/-- The filesystem holds the finite tree `t`: every directory of the tree, the root
included, is read without error and with its entries as the result. -/
def holdsTree (fs : Filesystem) (t : Listing) : Prop :=
  fs.ReadDir "." = .ok t.infos ∧ readsBelow fs [] t

/-- The names of the non-directory entries of a directory, in listing order. -/
def Listing.fileNames : Listing → List String
  | .nil => []
  | .file n rest => n :: rest.fileNames
  | .dir _ _ rest => rest.fileNames

/-- The directories among the entries of a directory, in listing order, each with its
content. -/
def Listing.subdirs : Listing → List (String × Listing)
  | .nil => []
  | .file _ rest => rest.subdirs
  | .dir n content rest => (n, content) :: rest.subdirs

/-- Every entry of the tree has a valid name. -/
def Listing.validNames : Listing → Bool
  | .nil => true
  | .file n rest => validName n && rest.validNames
  | .dir n content rest => validName n && content.validNames && rest.validNames

/-- The non-directory entries below the directories of a queue, at any depth. -/
def queueFiles : List (List String × Listing) → List (List String)
  | [] => []
  | q :: qs => q.2.allFiles q.1 ++ queueFiles qs

/-- The number of directories of a queue, those below its elements included. -/
def queueDirs : List (List String × Listing) → Nat
  | [] => 0
  | q :: qs => 1 + q.2.dirCount + queueDirs qs

/-- The components of a root-relative path: the inverse of `pathStr`. -/
def compsOf (s : String) : List String :=
  if s = "." then [] else (s.data.splitOn '/').map String.mk

/-- The working copy of `repoTest` after its first step, as a tree. -/
def exTree : Listing :=
  .file "test.txt" (.dir "dir" (.file "test.txt" .nil) .nil)

/-! ## Theorems -/

/-! ### Contexts -/

theorem commitFromContext_withCommit (ctx : Context) (c : Commit) :
    CommitFromContext (WithCommit ctx c) = c := by
  simp [CommitFromContext, WithCommit, Context.Value]

theorem commitFromContext_apply (ctx : Context) (d : Derivation) :
    CommitFromContext (d.apply ctx) =
      (nearestCommit [d]).getD (CommitFromContext ctx) := by
  cases d <;>
    simp [Derivation.apply, nearestCommit, CommitFromContext, WithCommit, WithDiff,
      Context.Value, commitKey, diffKey]

theorem nearestCommit_cons (d : Derivation) (ds : List Derivation) (c0 : Commit) :
    (nearestCommit (d :: ds)).getD c0 =
      (nearestCommit ds).getD ((nearestCommit [d]).getD c0) := by
  cases h : nearestCommit ds <;> cases d <;> simp [nearestCommit, h]

theorem commitFromContext_derive (ds : List Derivation) :
    ∀ ctx : Context,
      CommitFromContext (derive ctx ds) = (nearestCommit ds).getD (CommitFromContext ctx) := by
  induction ds with
  | nil => intro ctx; simp [derive, nearestCommit]
  | cons d ds ih =>
    intro ctx
    have h := ih (d.apply ctx)
    simp only [derive, List.foldl_cons] at h ⊢
    rw [h, commitFromContext_apply]
    exact (nearestCommit_cons d ds _).symm

theorem diffFromContext_apply (ctx : Context) (d : Derivation) :
    DiffFromContext (d.apply ctx) = (nearestDiff [d]).getD (DiffFromContext ctx) := by
  cases d <;>
    simp [Derivation.apply, nearestDiff, DiffFromContext, WithCommit, WithDiff,
      Context.Value, commitKey, diffKey]

theorem nearestDiff_cons (d : Derivation) (ds : List Derivation) (r0 : DiffOption) :
    (nearestDiff (d :: ds)).getD r0 =
      (nearestDiff ds).getD ((nearestDiff [d]).getD r0) := by
  cases h : nearestDiff ds <;> cases d <;> simp [nearestDiff, h]

theorem diffFromContext_derive (ds : List Derivation) :
    ∀ ctx : Context,
      DiffFromContext (derive ctx ds) = (nearestDiff ds).getD (DiffFromContext ctx) := by
  induction ds with
  | nil => intro ctx; simp [derive, nearestDiff]
  | cons d ds ih =>
    intro ctx
    have h := ih (d.apply ctx)
    simp only [derive, List.foldl_cons] at h ⊢
    rw [h, diffFromContext_apply]
    exact (nearestDiff_cons d ds _).symm

theorem isZero_iff (d : DiffOption) : d.IsZero = true ↔ d.From = "" ∧ d.To = "" := by
  simp [DiffOption.IsZero]

/-- C8: `CommitFromContext` returns the revision of the nearest enclosing `WithCommit`
attachment: `CommitFromContext (WithCommit ctx c) = c` for every context (also one that
carries another commit); through any chain of derivations it is the revision of the last
`WithCommit` of the chain, and the value of the base context when the chain has none;
it is the sentinel `"HEAD"` for a root context; and the parent of `WithCommit ctx c` is
`ctx` itself, whose revision is what it was. -/
theorem C8_commit_from_context :
    (∀ (ctx : Context) (c : Commit), CommitFromContext (WithCommit ctx c) = c) ∧
    (∀ (ctx : Context) (c1 c2 : Commit),
      CommitFromContext (WithCommit (WithCommit ctx c1) c2) = c2) ∧
    (∀ (ctx : Context) (ds : List Derivation),
      CommitFromContext (derive ctx ds) = (nearestCommit ds).getD (CommitFromContext ctx)) ∧
    CommitFromContext Context.background = "HEAD" ∧
    CommitFromContext Context.todo = "HEAD" ∧
    (∀ (ds : List Derivation),
      CommitFromContext (derive Context.todo ds) = (nearestCommit ds).getD "HEAD") ∧
    (∀ (ctx : Context) (c : Commit),
      ∃ k v, WithCommit ctx c = Context.withValue ctx k v) := by
  refine ⟨commitFromContext_withCommit, fun ctx c1 c2 => commitFromContext_withCommit _ c2,
    fun ctx ds => commitFromContext_derive ds ctx, rfl, rfl, ?_, ?_⟩
  · intro ds
    rw [commitFromContext_derive]
    rfl
  · intro ctx c
    exact ⟨_, _, rfl⟩

/-- C9: `DiffFromContext (WithDiff ctx from to)` is the range `(from, to)`; through any
chain of derivations it is the range of the last `WithDiff`, and for a context without a
range it is the zero `DiffOption`, whose `IsZero` is true; `IsZero` is true exactly when
`From` and `To` are both the empty string. -/
theorem C9_diff_from_context :
    (∀ (ctx : Context) (src dst : Commit),
      DiffFromContext (WithDiff ctx src dst) = { From := src, To := dst }) ∧
    (∀ (ctx : Context) (ds : List Derivation),
      DiffFromContext (derive ctx ds) = (nearestDiff ds).getD (DiffFromContext ctx)) ∧
    DiffFromContext Context.background = {} ∧
    DiffFromContext Context.todo = {} ∧
    (∀ (ds : List Derivation),
      DiffFromContext (derive Context.todo ds) = (nearestDiff ds).getD {}) ∧
    DiffOption.IsZero {} = true ∧
    (∀ d : DiffOption, d.IsZero = true ↔ d.From = "" ∧ d.To = "") := by
  refine ⟨?_, fun ctx ds => diffFromContext_derive ds ctx, rfl, rfl, ?_, rfl, isZero_iff⟩
  · intro ctx src dst
    simp [DiffFromContext, WithDiff, Context.Value]
  · intro ds
    rw [diffFromContext_derive]
    rfl

/-! ### Object ids -/

theorem hexDigit_mem (n : Nat) : hexDigit n ∈ hextable := by
  unfold hexDigit
  by_cases h : n < hextable.length
  · rw [List.getD_eq_getElem _ _ h]
    exact List.getElem_mem _
  · rw [List.getD_eq_default _ _ (by omega)]
    decide

theorem hexEncode_chars (l : List (Fin 256)) : ∀ c ∈ hexEncode l, c ∈ hextable := by
  induction l with
  | nil => intro c hc; simp [hexEncode] at hc
  | cons b bs ih =>
    intro c hc
    simp only [hexEncode, List.mem_cons] at hc
    rcases hc with rfl | rfl | hc
    · exact hexDigit_mem _
    · exact hexDigit_mem _
    · exact ih c hc

theorem hash_string_ne_head (h : Hash) : h.String ≠ headRef := by
  intro heq
  have hd : hexEncode h.val = ['H', 'E', 'A', 'D'] := by
    have := congrArg String.data heq
    simpa [Hash.String, headRef] using this
  have hmem : 'H' ∈ hexEncode h.val := by rw [hd]; simp
  have := hexEncode_chars h.val 'H' hmem
  revert this
  decide

theorem hash_string_isHead (h : Hash) : Commit.IsHead h.String = false := by
  simp [Commit.IsHead, hash_string_ne_head]

theorem fromHexChar_hexDigit : ∀ n : Fin 16, fromHexChar (hexDigit n.val) = some n.val := by
  decide

theorem hexDecode_hexEncode (l : List (Fin 256)) : hexDecode (hexEncode l) = l := by
  induction l with
  | nil => rfl
  | cons b bs ih =>
    have h1 := fromHexChar_hexDigit ⟨b.val / 16, by omega⟩
    have h2 := fromHexChar_hexDigit ⟨b.val % 16, by omega⟩
    simp only at h1 h2
    simp only [hexEncode, hexDecode, h1, h2, ih]
    congr 1
    apply Fin.ext
    simp [Fin.ofNat]
    omega

theorem newHash_string (h : Hash) : NewHash h.String = h := by
  apply Subtype.ext
  simp only [NewHash, Hash.String, hexDecode_hexEncode]
  rw [List.take_append_of_le_length (by rw [h.property])]
  rw [List.take_of_length_le (by rw [h.property])]

theorem gitCommitHash_string (h : Hash) : gitCommitHash h.String = h := newHash_string h

/-! ### Reading -/

theorem readFromCommit_string {σ : Type} (E : Engine σ) (g : σ) (h : Hash) (path : String)
    (w : Writer) :
    gitRepo.readFromCommit E g h.String path w = snapshotRead E g h path w := by
  simp only [gitRepo.readFromCommit, gitRepo.commitObject, gitCommitHash_string, snapshotRead]
  cases E.CommitObject g h <;> rfl

theorem read_withCommit_string {σ : Type} (E : Engine σ) (g : σ) (ctx : Context) (h : Hash)
    (path : String) (w : Writer) :
    gitRepo.Read E g (WithCommit ctx h.String) path w = snapshotRead E g h path w := by
  simp only [gitRepo.Read, commitFromContext_withCommit, hash_string_isHead]
  exact readFromCommit_string E g h path w

theorem head_eq_snapshotRead {σ : Type} (E : Engine σ) (g : σ) (h : Hash)
    (hh : E.Head g = .ok h) (ctx : Context) (path : String) (w : Writer) :
    gitRepo.Head E g ctx path w = snapshotRead E g h path w := by
  simp only [gitRepo.Head, hh]
  exact read_withCommit_string E g _ h path w

/-- C2: in every repository state whose head resolves to the commit `h`, for every
context (whatever revision or range it carries), path and sink, `Head` gives the result
(sink and error) of the snapshot read of the path at `h`, which is also what
`readFromCommit` gives for the revision string of `h`; so `Head` gives the same result
under any two contexts. -/
theorem C2_head_reads_head_snapshot {σ : Type} (E : Engine σ) (g : σ) (h : Hash)
    (hh : E.Head g = .ok h) (ctx1 ctx2 : Context) (path : String) (w : Writer) :
    gitRepo.Head E g ctx1 path w = snapshotRead E g h path w ∧
    gitRepo.Head E g ctx1 path w = gitRepo.readFromCommit E g h.String path w ∧
    gitRepo.Head E g ctx1 path w = gitRepo.Head E g ctx2 path w := by
  refine ⟨head_eq_snapshotRead E g h hh ctx1 path w, ?_, ?_⟩
  · rw [head_eq_snapshotRead E g h hh, readFromCommit_string]
  · rw [head_eq_snapshotRead E g h hh, head_eq_snapshotRead E g h hh]

/-- Witness of C2 on the repository of `repoTest` after its first commit, for a context
that carries another revision and a range. -/
theorem C2_head_reads_head_snapshot_witness :
    exEngine.Head exCommitted = .ok (exHash 2) ∧
    (gitRepo.Head exEngine exCommitted (WithDiff (WithCommit Context.todo "abc") "a" "b")
        "dir/test.txt" {} = snapshotRead exEngine exCommitted (exHash 2) "dir/test.txt" {} ∧
      gitRepo.Head exEngine exCommitted (WithDiff (WithCommit Context.todo "abc") "a" "b")
        "dir/test.txt" {} =
        gitRepo.readFromCommit exEngine exCommitted (exHash 2).String "dir/test.txt" {} ∧
      gitRepo.Head exEngine exCommitted (WithDiff (WithCommit Context.todo "abc") "a" "b")
        "dir/test.txt" {} = gitRepo.Head exEngine exCommitted Context.background
        "dir/test.txt" {}) :=
  ⟨rfl, C2_head_reads_head_snapshot exEngine exCommitted (exHash 2) rfl _ _ _ _⟩

/-! ### Diff -/

theorem readContent_read {σ : Type} (E : Engine σ) (g : σ) (ctx : Context) (path : String) :
    readContent ctx path (gitRepo.Read E g) =
      ((sideRead E g (CommitFromContext ctx) path).1.buf,
        (sideRead E g (CommitFromContext ctx) path).2) := by
  simp only [readContent, gitRepo.Read, sideRead]

theorem diffFromWorktree_eq {σ : Type} (E : Engine σ) (g : σ) (ctx : Context) (path : String) :
    gitRepo.diffFromWorktree E g ctx path =
      diffResult (gitRepo.Head E g ctx path {}) (sideRead E g (CommitFromContext ctx) path) := by
  simp only [gitRepo.diffFromWorktree, readContent_read, diffResult]
  simp only [readContent]
  cases h : (gitRepo.Head E g ctx path {}).2 <;> simp [h]

theorem diffFromCommits_eq {σ : Type} (E : Engine σ) (g : σ) (opt : DiffOption)
    (path : String) :
    gitRepo.diffFromCommits E g opt path =
      diffResult (sideRead E g opt.From path) (sideRead E g opt.To path) := by
  simp only [gitRepo.diffFromCommits, readContent_read, commitFromContext_withCommit,
    diffResult]
  cases h : (sideRead E g opt.From path).2 <;> simp [h]

/-- C3, the claim as stated fails: in the repository `exDirty` (head snapshot
`test.txt = "something"`, working copy `test.txt = "changed"`), under a context with a
zero range that carries the revision of the head commit, `Diff` returns as `to` the
content of that snapshot, not the content of the live working copy. -/
theorem C3_counterexample :
    (DiffFromContext (WithCommit Context.background (exHash 2).String)).IsZero = true ∧
    gitRepo.readFromWorktree exEngine exDirty "test.txt" {} = ({ buf := "changed" }, none) ∧
    gitRepo.Diff exEngine exDirty (WithCommit Context.background (exHash 2).String)
      "test.txt" = ("something", "something", none) ∧
    (gitRepo.Diff exEngine exDirty (WithCommit Context.background (exHash 2).String)
      "test.txt").2.1 ≠ (gitRepo.readFromWorktree exEngine exDirty "test.txt" {}).1.buf := by
  decide

/-- C3 (amended): for every context whose range is zero and every path, `Diff` returns as
`from` what `Head` writes for the path and as `to` what `Read` writes for it under the
same context: the content of the live working copy when the context carries no revision
or the sentinel, the content recorded by the snapshot of the attached revision otherwise;
an error of the first read is returned without the second read counting, an error of the
second read is returned otherwise. -/
theorem C3_diff_zero_range {σ : Type} (E : Engine σ) (g : σ) (ctx : Context) (path : String)
    (hz : (DiffFromContext ctx).IsZero = true) :
    gitRepo.Diff E g ctx path =
      diffResult (gitRepo.Head E g ctx path {})
        (if (CommitFromContext ctx).IsHead then gitRepo.readFromWorktree E g path {}
         else gitRepo.readFromCommit E g (CommitFromContext ctx) path {}) ∧
    (CommitFromContext ctx = "HEAD" →
      gitRepo.Diff E g ctx path =
        diffResult (gitRepo.Head E g ctx path {}) (gitRepo.readFromWorktree E g path {})) := by
  have h1 : gitRepo.Diff E g ctx path =
      diffResult (gitRepo.Head E g ctx path {}) (sideRead E g (CommitFromContext ctx) path) := by
    simp only [gitRepo.Diff, hz, Bool.not_true]
    exact diffFromWorktree_eq E g ctx path
  refine ⟨h1, ?_⟩
  intro hc
  rw [h1, sideRead, hc]
  rfl

/-- Witness of the amended C3: the root context on `exDirty` gives the head snapshot
against the live working copy. -/
theorem C3_diff_zero_range_witness :
    (DiffFromContext Context.background).IsZero = true ∧
    CommitFromContext Context.background = "HEAD" ∧
    gitRepo.Diff exEngine exDirty Context.background "test.txt" =
      ("something", "changed", none) ∧
    gitRepo.Diff exEngine exDirty Context.background "test.txt" =
      diffResult (gitRepo.Head exEngine exDirty Context.background "test.txt" {})
        (gitRepo.readFromWorktree exEngine exDirty "test.txt" {}) :=
  ⟨rfl, rfl, by decide,
    (C3_diff_zero_range exEngine exDirty Context.background "test.txt" rfl).2 rfl⟩

/-- C4, the claim as stated fails: under the range `("HEAD", R)` the side `from` is read
from the live working copy (`"changed"` in `exDirty`), although the snapshot read at
`"HEAD"` fails and the head snapshot records `"something"`; the same range on
`exCommitted`, which has the same snapshots and another working copy, gives another
result, so the working copy is consulted. -/
theorem C4_counterexample :
    (DiffFromContext (WithDiff Context.background "HEAD" (exHash 2).String)).IsZero = false ∧
    gitRepo.Diff exEngine exDirty (WithDiff Context.background "HEAD" (exHash 2).String)
      "test.txt" = ("changed", "something", none) ∧
    gitRepo.readFromCommit exEngine exDirty "HEAD" "test.txt" {} =
      ({}, some (Err.wrap "get commit object HEAD" (Err.mk "object not found"))) ∧
    snapshotRead exEngine exDirty (exHash 2) "test.txt" {} = ({ buf := "something" }, none) ∧
    gitRepo.Diff exEngine exCommitted (WithDiff Context.background "HEAD" (exHash 2).String)
      "test.txt" = ("something", "something", none) := by
  decide

/-- C4 (amended): for every context whose range `(From, To)` is not zero and every path,
`Diff` reads each side as `Read` does for that revision alone: a side that is not the
sentinel `"HEAD"` (the empty string included) is the snapshot read of the path at that
revision, a side that is the sentinel is read from the live working copy; `to` counts
only if `from` was read without error; the revision attached to the context is not
consulted (contexts with the same range give the same result). -/
theorem C4_diff_commit_range {σ : Type} (E : Engine σ) (g : σ) (ctx : Context)
    (path : String) (hnz : (DiffFromContext ctx).IsZero = false) :
    gitRepo.Diff E g ctx path =
      diffResult (sideRead E g (DiffFromContext ctx).From path)
        (sideRead E g (DiffFromContext ctx).To path) ∧
    ((DiffFromContext ctx).From ≠ "HEAD" → (DiffFromContext ctx).To ≠ "HEAD" →
      gitRepo.Diff E g ctx path =
        diffResult (gitRepo.readFromCommit E g (DiffFromContext ctx).From path {})
          (gitRepo.readFromCommit E g (DiffFromContext ctx).To path {})) ∧
    (∀ ctx2 : Context, DiffFromContext ctx2 = DiffFromContext ctx →
      gitRepo.Diff E g ctx2 path = gitRepo.Diff E g ctx path) := by
  have h1 : ∀ c : Context, (DiffFromContext c).IsZero = false →
      gitRepo.Diff E g c path =
        diffResult (sideRead E g (DiffFromContext c).From path)
          (sideRead E g (DiffFromContext c).To path) := by
    intro c hc
    simp only [gitRepo.Diff, hc, Bool.not_false, if_true]
    exact diffFromCommits_eq E g _ path
  refine ⟨h1 ctx hnz, ?_, ?_⟩
  · intro hf ht
    rw [h1 ctx hnz]
    have e1 : Commit.IsHead (DiffFromContext ctx).From = false := by
      simpa [Commit.IsHead, headRef] using hf
    have e2 : Commit.IsHead (DiffFromContext ctx).To = false := by
      simpa [Commit.IsHead, headRef] using ht
    simp [sideRead, e1, e2]
  · intro ctx2 h2
    rw [h1 ctx hnz, h1 ctx2 (by rw [h2]; exact hnz), h2]

/-- Witness of the amended C4: the range from the first commit of `repoTest` to itself,
under a context that also carries a revision. -/
theorem C4_diff_commit_range_witness :
    (DiffFromContext (WithCommit (WithDiff Context.todo (exHash 2).String (exHash 2).String)
      "abc")).IsZero = false ∧
    gitRepo.Diff exEngine exDirty
      (WithCommit (WithDiff Context.todo (exHash 2).String (exHash 2).String) "abc")
      "test.txt" = ("something", "something", none) ∧
    gitRepo.Diff exEngine exDirty
      (WithCommit (WithDiff Context.todo (exHash 2).String (exHash 2).String) "abc")
      "test.txt" =
      diffResult (gitRepo.readFromCommit exEngine exDirty (exHash 2).String "test.txt" {})
        (gitRepo.readFromCommit exEngine exDirty (exHash 2).String "test.txt" {}) :=
  ⟨by decide, by decide,
    (C4_diff_commit_range exEngine exDirty
      (WithCommit (WithDiff Context.todo (exHash 2).String (exHash 2).String) "abc")
      "test.txt" (by decide)).2.1 (by decide) (by decide)⟩

/-! ### DiffPatch -/

/-- C5: for every context whose range is zero, if the status report succeeds and is
clean, `DiffPatch` returns no error and leaves the sink as it was (nothing is written). -/
theorem C5_clean_status_empty_patch {σ : Type} (E : Engine σ) (g : σ) (ctx : Context)
    (w : Writer) (st : Status) (hz : (DiffFromContext ctx).IsZero = true)
    (hs : gitRepo.status E g = .ok st) (hc : st.IsClean = true) :
    gitRepo.DiffPatch E g ctx w = (w, none) := by
  simp [gitRepo.DiffPatch, hz, gitRepo.diffPatchFromWorktree, hs, hc]

/-- Witness of C5: right after the first commit of `repoTest` the status is clean and the
patch of the working copy is empty. -/
theorem C5_clean_status_empty_patch_witness :
    (DiffFromContext Context.todo).IsZero = true ∧
    gitRepo.status exEngine exCommitted = .ok [] ∧
    Status.IsClean [] = true ∧
    gitRepo.DiffPatch exEngine exCommitted Context.todo {} = ({}, none) :=
  ⟨rfl, rfl, rfl,
    C5_clean_status_empty_patch exEngine exCommitted Context.todo {} [] rfl rfl rfl⟩

/-! ### Staging -/

theorem length_eq_zero_iff (s : String) : s.length = 0 ↔ s = "" := by
  constructor
  · intro h
    apply String.ext
    exact List.length_eq_zero.mp h
  · rintro rfl
    rfl

/-- C6, the claim as stated fails: staging `test.txt` with an empty payload in the
repository `exCommitted` removes the file from the working copy and returns no error,
but the index keeps the entry of `test.txt` (the status shows the removal as a change of
the working copy that is not staged); the staging step that follows a write, `tree.Add`,
applied after the removal would have removed the entry from the index. -/
theorem C6_counterexample :
    (gitRepo.add exEngine exCommitted "test.txt" "").1 = none ∧
    (gitRepo.add exEngine exCommitted "test.txt" "").2.files =
      [("dir/test.txt", "something")] ∧
    (gitRepo.add exEngine exCommitted "test.txt" "").2.index =
      [("test.txt", "something"), ("dir/test.txt", "something")] ∧
    (gitRepo.add exEngine exCommitted "test.txt" "").2.status =
      [("test.txt", { Staging := StatusCode.Unmodified, Worktree := StatusCode.Deleted })] ∧
    (exEngine.Add (exEngine.Remove exCommitted "test.txt").2 "test.txt").2.index =
      [("dir/test.txt", "something")] ∧
    (gitRepo.add exEngine exCommitted "test.txt" "").2.index ≠
      (exEngine.Add (exEngine.Remove exCommitted "test.txt").2 "test.txt").2.index := by
  decide

theorem stage_append {σ : Type} (E : Engine σ) (pre rest : List File) :
    ∀ g : σ, stageOk E g pre = true →
      gitRepo.stage E g (pre ++ rest) =
        ((gitRepo.stage E (applyAll E g pre) rest).1,
          (gitRepo.stage E (applyAll E g pre) rest).2.1,
          pre.map File.drained ++ (gitRepo.stage E (applyAll E g pre) rest).2.2) := by
  induction pre with
  | nil => intro g _; simp [applyAll]
  | cons f pre ih =>
    intro g hok
    simp only [stageOk, Bool.and_eq_true, beq_iff_eq] at hok
    obtain ⟨⟨hf, ha⟩, hrest⟩ := hok
    have hadd : gitRepo.add E g f.Name f.body.data =
        (none, (gitRepo.add E g f.Name f.body.data).2) := by
      rw [← ha]
    have hih := ih _ hrest
    have happ : applyAll E g (f :: pre) =
        applyAll E (gitRepo.add E g f.Name f.body.data).2 pre := by
      simp [applyAll]
    rw [happ]
    simp only [List.cons_append, gitRepo.stage, ioReadAll, hf]
    rw [hadd]
    simp only [List.append_eq, hih, List.map_cons, List.cons_append]

/-- C7, the claim as stated fails: with an engine whose index cannot be written, `Add` of
the single entry `a.txt = "x"` to the empty repository fails at entry 0 in its staging
step, after the file was written; `Add` returns the error, and the working copy holds
`a.txt`, while after `Add` of the entries before entry 0 (none) it is empty. -/
theorem C7_counterexample :
    (gitRepo.Add lockedEngine {} Context.todo
      [{ Name := "a.txt", body := { data := "x" } }]).1 = some (Err.mk "index locked") ∧
    (gitRepo.Add lockedEngine {} Context.todo
      [{ Name := "a.txt", body := { data := "x" } }]).2.1.files = [("a.txt", "x")] ∧
    (gitRepo.Add lockedEngine {} Context.todo []).2.1.files = [] ∧
    (gitRepo.Add lockedEngine {} Context.todo
      [{ Name := "a.txt", body := { data := "x" } }]).2.1.files ≠
      (gitRepo.Add lockedEngine {} Context.todo []).2.1.files := by
  decide

/-- C7 (amended): for every list of named streams `pre ++ f :: post` whose entries `pre`
are all read and staged without error (and a repository whose work tree is available):
`Add` of `pre` alone returns no error, has applied every entry in list order and drained
every stream; if the read of `f` fails, `Add` returns that error, the repository is
exactly as after `Add` of `pre` alone, and the streams of `post` are untouched; if the
staging of `f` fails, `Add` returns that error, the repository is the one the failed
staging of `f` left on top of `pre` (what that staging did before it failed is kept, not
rolled back), and the streams of `post` are untouched. -/
theorem C7_add_fail_fast {σ : Type} (E : Engine σ) (g : σ) (ctx : Context)
    (pre : List File) (f : File) (post : List File)
    (hw : E.Worktree g = none) (hpre : stageOk E g pre = true) :
    gitRepo.Add E g ctx pre = (none, applyAll E g pre, pre.map File.drained) ∧
    (∀ e, f.body.fault = some e →
      gitRepo.Add E g ctx (pre ++ f :: post) =
        (some e, applyAll E g pre, pre.map File.drained ++ f.drained :: post)) ∧
    (∀ e, f.body.fault = none →
      (gitRepo.add E (applyAll E g pre) f.Name f.body.data).1 = some e →
      gitRepo.Add E g ctx (pre ++ f :: post) =
        (some e, (gitRepo.add E (applyAll E g pre) f.Name f.body.data).2,
          pre.map File.drained ++ f.drained :: post)) := by
  refine ⟨?_, ?_, ?_⟩
  · have h := stage_append E pre [] g hpre
    simp only [List.append_nil, gitRepo.stage] at h
    simp only [gitRepo.Add, hw, h]
  · intro e he
    simp only [gitRepo.Add, hw, stage_append E pre (f :: post) g hpre, gitRepo.stage,
      ioReadAll, he]
  · intro e he ha
    have hadd : gitRepo.add E (applyAll E g pre) f.Name f.body.data =
        (some e, (gitRepo.add E (applyAll E g pre) f.Name f.body.data).2) := by
      rw [← ha]
    simp only [gitRepo.Add, hw, stage_append E pre (f :: post) g hpre, gitRepo.stage,
      ioReadAll, he]
    rw [hadd]

/-- Witness of the amended C7: the first entry is staged, the second fails to be read;
and with the locked index, the staging of the first entry fails after its write. -/
theorem C7_add_fail_fast_witness :
    (exEngine.Worktree {} = none ∧
      stageOk exEngine {} [{ Name := "a.txt", body := { data := "x" } }] = true) ∧
    (gitRepo.Add exEngine {} Context.todo [{ Name := "a.txt", body := { data := "x" } }] =
        (none, applyAll exEngine {} [{ Name := "a.txt", body := { data := "x" } }],
          [{ Name := "a.txt", body := { data := "" } }]) ∧
      gitRepo.Add exEngine {} Context.todo
          ([{ Name := "a.txt", body := { data := "x" } }] ++
            { Name := "b.txt", body := { data := "y", fault := some (Err.mk "read") } } ::
              [{ Name := "c.txt", body := { data := "z" } }]) =
        (some (Err.mk "read"),
          applyAll exEngine {} [{ Name := "a.txt", body := { data := "x" } }],
          [{ Name := "a.txt", body := { data := "" } },
           { Name := "b.txt", body := { data := "", fault := some (Err.mk "read") } },
           { Name := "c.txt", body := { data := "z" } }])) ∧
    gitRepo.Add lockedEngine {} Context.todo
        ([] ++ { Name := "a.txt", body := { data := "x" } } ::
          [{ Name := "c.txt", body := { data := "z" } }]) =
      (some (Err.mk "index locked"),
        (gitRepo.add lockedEngine (applyAll lockedEngine {} []) "a.txt" "x").2,
        [{ Name := "a.txt", body := { data := "" } },
         { Name := "c.txt", body := { data := "z" } }]) :=
  ⟨⟨rfl, rfl⟩,
    ⟨(C7_add_fail_fast exEngine {} Context.todo [{ Name := "a.txt", body := { data := "x" } }]
        { Name := "b.txt", body := { data := "y", fault := some (Err.mk "read") } }
        [{ Name := "c.txt", body := { data := "z" } }] rfl rfl).1,
      (C7_add_fail_fast exEngine {} Context.todo [{ Name := "a.txt", body := { data := "x" } }]
        { Name := "b.txt", body := { data := "y", fault := some (Err.mk "read") } }
        [{ Name := "c.txt", body := { data := "z" } }] rfl rfl).2.1 _ rfl⟩,
    (C7_add_fail_fast lockedEngine {} Context.todo []
      { Name := "a.txt", body := { data := "x" } }
      [{ Name := "c.txt", body := { data := "z" } }] rfl rfl).2.2 _ rfl rfl⟩

/-! ### The in-memory engine -/

theorem lookup_upsert_self (m : Table) (k v : String) : (m.upsert k v).lookup k = some v := by
  induction m with
  | nil => simp [Table.upsert, List.lookup]
  | cons e rest ih =>
    obtain ⟨k1, v1⟩ := e
    by_cases h : k1 = k
    · simp [Table.upsert, h, List.lookup]
    · have h2 : (k == k1) = false := by
        simpa using fun hh : k = k1 => h hh.symm
      simp [Table.upsert, h, List.lookup, h2, ih]

theorem lookup_autoAdd (s : GitState) (p : String) :
    s.autoAdd.lookup p = (s.index.lookup p).bind fun _ => s.files.lookup p := by
  unfold GitState.autoAdd
  induction s.index with
  | nil => simp [List.lookup]
  | cons e rest ih =>
    obtain ⟨k1, v1⟩ := e
    by_cases h : p = k1
    · subst h
      cases hf : List.lookup p s.files <;> simp [List.filterMap_cons, hf, List.lookup, ih]
    · have h2 : (p == k1) = false := by simpa using h
      cases hf : List.lookup k1 s.files <;>
        simp [List.filterMap_cons, hf, List.lookup, ih, h2]

theorem add_nonempty_mem (hasher : Snapshot → Hash) (pt : String → String → String)
    (s : GitState) (path content : String) (hne : content ≠ "") :
    gitRepo.add (memEngine hasher pt) s path content =
      (none, { s with
        files := (s.files.upsert path "").upsert path content,
        index := s.index.upsert path content }) := by
  have hl : content.length ≠ 0 := fun h => hne ((length_eq_zero_iff content).mp h)
  simp [gitRepo.add, hl, memEngine, lookup_upsert_self]

theorem lookup_upsert_ne (m : Table) (k v a : String) (h : a ≠ k) :
    (m.upsert k v).lookup a = m.lookup a := by
  induction m with
  | nil =>
    have h2 : (a == k) = false := by simpa using h
    simp [Table.upsert, List.lookup, h2]
  | cons e rest ih =>
    obtain ⟨k1, v1⟩ := e
    by_cases hk : k1 = k
    · subst hk
      have h2 : (a == k1) = false := by simpa using h
      simp [Table.upsert, List.lookup, h2]
    · by_cases ha : a = k1
      · subst ha
        simp [Table.upsert, hk, List.lookup]
      · have h2 : (a == k1) = false := by simpa using ha
        simp [Table.upsert, hk, List.lookup, h2, ih]

theorem ancestors_ne (p a : String) (ha : a ∈ ancestors p) : a ≠ p := by
  intro heq
  simp only [ancestors, List.mem_filterMap, List.mem_range] at ha
  obtain ⟨i, hi, hsome⟩ := ha
  split at hsome
  · simp only [Option.some.injEq] at hsome
    have hlen := congrArg (fun x : String => x.data.length) hsome
    simp only [List.length_take] at hlen
    rw [heq] at hlen
    omega
  · exact absurd hsome (by simp)

theorem add_single_mem (hasher : Snapshot → Hash) (pt : String → String → String)
    (s s1 : GitState) (ctx : Context) (f : File) (fs1 : List File)
    (hne : f.body.data ≠ "")
    (hadd : gitRepo.Add (memEngine hasher pt) s ctx [f] = (none, s1, fs1)) :
    s1 = { s with
      files := (s.files.upsert f.Name "").upsert f.Name f.body.data,
      index := s.index.upsert f.Name f.body.data } := by
  have hw : (memEngine hasher pt).Worktree s = none := rfl
  simp only [gitRepo.Add, hw, gitRepo.stage, ioReadAll] at hadd
  cases hf : f.body.fault with
  | some e => simp [hf] at hadd
  | none =>
    simp only [hf, add_nonempty_mem hasher pt s f.Name f.body.data hne] at hadd
    simp only [Prod.mk.injEq, true_and] at hadd
    exact hadd.1.symm

theorem commit_mem (hasher : Snapshot → Hash) (pt : String → String → String)
    (s1 s2 : GitState) (ctx : Context) (now : Nat) (msg : String) (R : Commit)
    (hcommit : gitRepo.Commit (memEngine hasher pt) s1 ctx now msg = (.ok R, s2)) :
    ∃ snap : Snapshot, snap.tree = s1.autoAdd ∧ R = (hasher snap).String ∧
      s2.objects = (hasher snap, snap) :: s1.objects ∧ s2.head = some (hasher snap) ∧
      s2.files = s1.files ∧ s2.index = s1.autoAdd := by
  have hw : (memEngine hasher pt).Worktree s1 = none := rfl
  simp only [gitRepo.Commit, hw] at hcommit
  by_cases hc : Table.same s1.autoAdd s1.headTree = true
  · have he : (memEngine hasher pt).Commit s1 msg { All := true, Author := gitSignature now } =
        (.error (Err.mk "cannot create empty commit: clean working tree"),
          { s1 with index := s1.autoAdd }) := by
      simp only [memEngine, if_true]
      rw [if_pos hc]
    rw [he] at hcommit
    simp at hcommit
  · have he : (memEngine hasher pt).Commit s1 msg { All := true, Author := gitSignature now } =
        (.ok (hasher ⟨s1.autoAdd, s1.head, msg, gitSignature now⟩),
          { s1 with
            index := s1.autoAdd,
            objects := (hasher ⟨s1.autoAdd, s1.head, msg, gitSignature now⟩,
              ⟨s1.autoAdd, s1.head, msg, gitSignature now⟩) :: s1.objects,
            head := some (hasher ⟨s1.autoAdd, s1.head, msg, gitSignature now⟩) }) := by
      simp only [memEngine, if_true]
      rw [if_neg hc]
    rw [he] at hcommit
    simp only [Prod.mk.injEq, Except.ok.injEq] at hcommit
    obtain ⟨hR, hs⟩ := hcommit
    refine ⟨⟨s1.autoAdd, s1.head, msg, gitSignature now⟩, rfl, hR.symm, ?_, ?_, ?_, ?_⟩ <;>
      simp [← hs]

/-- C1, the claim as stated fails for the empty text: in the repository `exCommitted`,
`Add` of `test.txt` with empty content succeeds, the following `Commit` returns a
revision, and `Read` of `test.txt` at that revision fails with an error. -/
theorem C1_counterexample :
    (gitRepo.Add exEngine exCommitted Context.todo
      [{ Name := "test.txt", body := { data := "" } }]).1 = none ∧
    (gitRepo.Commit exEngine
      (gitRepo.Add exEngine exCommitted Context.todo
        [{ Name := "test.txt", body := { data := "" } }]).2.1
      Context.todo 0 "change 1").1 = .ok (exHash 1).String ∧
    gitRepo.Read exEngine
      (gitRepo.Commit exEngine
        (gitRepo.Add exEngine exCommitted Context.todo
          [{ Name := "test.txt", body := { data := "" } }]).2.1
        Context.todo 0 "change 1").2
      (WithCommit Context.todo (exHash 1).String) "test.txt" {} =
      ({}, some (Err.mk "file not found")) := by
  refine ⟨by decide, by rfl, by decide⟩

/-- The round trip needs a clean path: `Add` of `d//a.txt` with content `t` to the empty
repository and `Commit` succeed, and the read of `d//a.txt` at the new revision fails. -/
theorem roundtrip_fails_for_unclean_path :
    (gitRepo.Add exEngine {} Context.todo
      [{ Name := "d//a.txt", body := { data := "t" } }]).1 = none ∧
    (gitRepo.Commit exEngine
      (gitRepo.Add exEngine {} Context.todo
        [{ Name := "d//a.txt", body := { data := "t" } }]).2.1
      Context.todo 0 "change").1 = .ok (exHash 1).String ∧
    (gitRepo.Read exEngine
      (gitRepo.Commit exEngine
        (gitRepo.Add exEngine {} Context.todo
          [{ Name := "d//a.txt", body := { data := "t" } }]).2.1
        Context.todo 0 "change").2
      (WithCommit Context.todo (exHash 1).String) "d//a.txt" {}).2.isSome = true := by
  refine ⟨by decide, by rfl, by decide⟩

/-- The round trip needs a path that does not lie below a file: in `exCommitted`, where
`test.txt` is a file of the working copy and of the index, `Add` of `test.txt/sub` with
content `x` and `Commit` succeed, and the read of `test.txt/sub` at the new revision
fails. -/
theorem roundtrip_fails_below_file :
    (gitRepo.Add exEngine exCommitted Context.todo
      [{ Name := "test.txt/sub", body := { data := "x" } }]).1 = none ∧
    (gitRepo.Commit exEngine
      (gitRepo.Add exEngine exCommitted Context.todo
        [{ Name := "test.txt/sub", body := { data := "x" } }]).2.1
      Context.todo 0 "change").1 = .ok (exHash 3).String ∧
    (gitRepo.Read exEngine
      (gitRepo.Commit exEngine
        (gitRepo.Add exEngine exCommitted Context.todo
          [{ Name := "test.txt/sub", body := { data := "x" } }]).2.1
        Context.todo 0 "change").2
      (WithCommit Context.todo (exHash 3).String) "test.txt/sub" {}).2.isSome = true := by
  refine ⟨by decide, by rfl, by decide⟩

/-- C1 (amended): in the in-memory repository (a working copy of regular files), for
every state, every clean relative path above which neither the index nor the working copy
holds a file, and every non-empty text: after `Add` of the one file with that name and
content succeeds and `Commit` returns the revision `R`, `Read` of the path under
`WithCommit ctx R` succeeds and appends exactly the text to a sink that accepts writes. -/
theorem C1_commit_read_roundtrip (hasher : Snapshot → Hash) (pt : String → String → String)
    (s s1 s2 : GitState) (ctx : Context) (f : File) (fs1 : List File) (now : Nat)
    (msg : String) (R : Commit) (sink : Writer)
    (hclean : isCleanPath f.Name = true)
    (hfree : ∀ a ∈ ancestors f.Name, s.index.lookup a = none ∧ s.files.lookup a = none)
    (hne : f.body.data ≠ "")
    (hadd : gitRepo.Add (memEngine hasher pt) s ctx [f] = (none, s1, fs1))
    (hcommit : gitRepo.Commit (memEngine hasher pt) s1 ctx now msg = (.ok R, s2))
    (hsink : sink.fault = none) :
    gitRepo.Read (memEngine hasher pt) s2 (WithCommit ctx R) f.Name sink =
      ({ sink with buf := sink.buf ++ f.body.data }, none) := by
  have h1 := add_single_mem hasher pt s s1 ctx f fs1 hne hadd
  obtain ⟨snap, htree, hR, hobj, -, -, -⟩ := commit_mem hasher pt s1 s2 ctx now msg R hcommit
  have hlook : snap.tree.lookup f.Name = some f.body.data := by
    rw [htree, lookup_autoAdd, h1]
    simp [lookup_upsert_self]
  have habove : ∀ a ∈ ancestors f.Name, snap.tree.lookup a = none := by
    intro a ha
    rw [htree, lookup_autoAdd, h1]
    simp only
    rw [lookup_upsert_ne _ _ _ _ (ancestors_ne f.Name a ha), (hfree a ha).1]
    rfl
  have hreach : snap.tree.reaches f.Name = true := by
    simp only [Table.reaches, hclean, Bool.true_and, List.all_eq_true]
    intro a ha
    rw [habove a ha]
    rfl
  rw [hR, read_withCommit_string]
  have hco : (memEngine hasher pt).CommitObject s2 (hasher snap) =
      .ok (snap.object (hasher snap)) := by
    simp [memEngine, hobj, List.lookup]
  simp [snapshotRead, hco, Snapshot.object, hreach, hlook, ioCopy, hne, Writer.Write, hsink]

/-- Witness of the amended C1: the second file of `repoTest` rewritten and committed on
top of the first commit. -/
theorem C1_commit_read_roundtrip_witness :
    (isCleanPath "dir/test.txt" = true ∧
      (∀ a ∈ ancestors "dir/test.txt",
        exCommitted.index.lookup a = none ∧ exCommitted.files.lookup a = none) ∧
      ("other thing" : String) ≠ "") ∧
    gitRepo.Read exEngine
      (gitRepo.Commit exEngine
        (gitRepo.Add exEngine exCommitted Context.todo
          [{ Name := "dir/test.txt", body := { data := "other thing" } }]).2.1
        Context.todo 0 "change 1").2
      (WithCommit Context.todo (exHash 2).String) "dir/test.txt" {} =
      ({ buf := "other thing" }, none) :=
  ⟨⟨by decide, by decide, by decide⟩,
    C1_commit_read_roundtrip exHasher exPatchText exCommitted _ _ Context.todo
      { Name := "dir/test.txt", body := { data := "other thing" } } _ 0 "change 1"
      (exHash 2).String {} (by decide) (by decide) (by decide) rfl rfl rfl⟩

theorem lookup_erase_self (m : Table) (k : String) : (m.erase k).lookup k = none := by
  unfold Table.erase
  induction m with
  | nil => simp [List.lookup]
  | cons e rest ih =>
    obtain ⟨k1, v1⟩ := e
    by_cases h : k1 = k
    · simpa [List.filter_cons, h] using ih
    · have h2 : (k == k1) = false := by
        simpa using fun hh : k = k1 => h hh.symm
      simpa [List.filter_cons, h, List.lookup, h2] using ih

/-- C6 (amended): for every repository state and every entry whose payload is empty,
staging the entry is exactly the removal of the path from the working copy: the error
and the state are those of `fs.Remove`, and no staging step (`tree.Add`) follows; in the
in-memory repository the working copy has no such path afterwards and the index is left
as it was. -/
theorem C6_empty_payload_removes {σ : Type} (E : Engine σ) (g : σ) (path content : String)
    (he : content.length = 0) :
    gitRepo.add E g path content = E.Remove g path ∧
    ∀ (hasher : Snapshot → Hash) (pt : String → String → String) (s : GitState),
      (gitRepo.add (memEngine hasher pt) s path content).2.files.lookup path = none ∧
      (gitRepo.add (memEngine hasher pt) s path content).2.index = s.index := by
  have hgen : ∀ {τ : Type} (F : Engine τ) (x : τ),
      gitRepo.add F x path content = F.Remove x path := by
    intro τ F x
    simp [gitRepo.add, he]
  refine ⟨hgen E g, ?_⟩
  intro hasher pt s
  rw [hgen]
  simp only [memEngine]
  cases h : List.lookup path s.files with
  | none => simp [h]
  | some c => simp [lookup_erase_self]

/-- Witness of the amended C6 on `exCommitted`. -/
theorem C6_empty_payload_removes_witness :
    ("" : String).length = 0 ∧
    gitRepo.add exEngine exCommitted "test.txt" "" = exEngine.Remove exCommitted "test.txt" ∧
    (gitRepo.add exEngine exCommitted "test.txt" "").2.files.lookup "test.txt" = none ∧
    (gitRepo.add exEngine exCommitted "test.txt" "").2.index = exCommitted.index :=
  ⟨rfl, (C6_empty_payload_removes exEngine exCommitted "test.txt" "" rfl).1,
    (C6_empty_payload_removes exEngine exCommitted "test.txt" "" rfl).2
      exHasher exPatchText exCommitted⟩

/-! ### Paths -/

theorem validName_iff (n : String) :
    validName n = true ↔
      n.data ≠ [] ∧ '/' ∉ n.data ∧ n.data ≠ ['.'] ∧ n.data ≠ ['.', '.'] := by
  simp [validName, and_assoc]

theorem intersperse_append_singleton {α : Type} (sep : α) (y : α) (xs : List α)
    (hne : xs ≠ []) : (xs ++ [y]).intersperse sep = xs.intersperse sep ++ [sep, y] := by
  induction xs with
  | nil => exact absurd rfl hne
  | cons x xs ih =>
    cases xs with
    | nil => simp
    | cons x2 xs => simpa using ih (by simp)

theorem intercalate_append_singleton {α : Type} (sep y : List α) (xs : List (List α))
    (hne : xs ≠ []) : sep.intercalate (xs ++ [y]) = sep.intercalate xs ++ sep ++ y := by
  simp [List.intercalate, intersperse_append_singleton sep y xs hne]

theorem foldl_cleanStep_valid (comps : List (List Char))
    (hv : ∀ c ∈ comps, c ≠ [] ∧ c ≠ ['.'] ∧ c ≠ ['.', '.']) :
    ∀ out : List (List Char), comps.foldl (cleanStep false) out = out ++ comps := by
  induction comps with
  | nil => intro out; simp
  | cons c cs ih =>
    intro out
    obtain ⟨h1, h2, h3⟩ := hv c (by simp)
    have hstep : cleanStep false out c = out ++ [c] := by
      simp [cleanStep, h1, h2, h3]
    simp only [List.foldl_cons, hstep]
    rw [ih (fun c hc => hv c (by simp [hc]))]
    simp

theorem cleanChars_intercalate (comps : List (List Char)) (hne : comps ≠ [])
    (hv : ∀ c ∈ comps, c ≠ [] ∧ '/' ∉ c ∧ c ≠ ['.'] ∧ c ≠ ['.', '.']) :
    cleanChars (['/'].intercalate comps) = ['/'].intercalate comps := by
  obtain ⟨c, cs, rfl⟩ := List.exists_cons_of_ne_nil hne
  obtain ⟨hc1, hc2, -, -⟩ := hv c (by simp)
  obtain ⟨x, xs, rfl⟩ := List.exists_cons_of_ne_nil hc1
  have hx : x ≠ '/' := fun h => hc2 (by simp [h])
  have hhead : ['/'].intercalate ((x :: xs) :: cs) =
      x :: (xs ++ (['/'].intercalate ((x :: xs) :: cs)).tail.drop xs.length) := by
    cases cs <;> simp [List.intercalate]
  have hsplit := List.splitOn_intercalate ((x :: xs) :: cs) '/'
    (fun l hl => (hv l hl).2.1) (by simp)
  have hfold := foldl_cleanStep_valid ((x :: xs) :: cs)
    (fun c hc => ⟨(hv c hc).1, (hv c hc).2.2⟩) []
  unfold cleanChars
  rw [hsplit]
  have hnil : ['/'].intercalate ((x :: xs) :: cs) ≠ [] := by
    rw [hhead]; simp
  have hrooted : ((['/'].intercalate ((x :: xs) :: cs)).head? == some '/') = false := by
    rw [hhead]
    simpa using hx
  simp only [hnil, if_false, hrooted, hfold, List.nil_append]
  simp

theorem filepathJoin_pathStr (cs : List String) (n : String)
    (hcs : ∀ c ∈ cs, validName c = true) (hn : validName n = true) :
    filepathJoin (pathStr cs) n = pathStr (cs ++ [n]) := by
  have hn4 := (validName_iff n).mp hn
  have hnne : n ≠ "" := by
    intro h; apply hn4.1; rw [h]
  by_cases hcs0 : cs = []
  · subst hcs0
    have hv : ∀ c ∈ [n.data], c ≠ [] ∧ '/' ∉ c ∧ c ≠ ['.'] ∧ c ≠ ['.', '.'] := by
      intro c hc
      simp only [List.mem_singleton] at hc
      subst hc
      exact hn4
    have hsplit := List.splitOn_intercalate [['.'], n.data] '/'
      (by
        intro l hl
        simp only [List.mem_cons, List.mem_singleton, List.not_mem_nil, or_false] at hl
        rcases hl with rfl | rfl
        · decide
        · exact hn4.2.1) (by simp)
    have hdata : ['/'].intercalate [['.'], n.data] = '.' :: '/' :: n.data := by
      simp [List.intercalate]
    rw [hdata] at hsplit
    have hclean : cleanChars ('.' :: '/' :: n.data) = n.data := by
      unfold cleanChars
      rw [hsplit]
      have h1 : cleanStep false [] ['.'] = [] := by simp [cleanStep]
      have h2 : cleanStep false [] n.data = [n.data] := by
        simp [cleanStep, hn4.1, hn4.2.2.1, hn4.2.2.2]
      simp [h1, h2, List.intercalate]
    have hp : pathStr [] = "." := rfl
    have hd : (".":String).data = ['.'] := rfl
    simp only [hp, filepathJoin, hnne, if_false, hd, List.singleton_append, hclean]
    simp [pathStr, List.intercalate]
  · have hv : ∀ c ∈ (cs ++ [n]).map String.data,
        c ≠ [] ∧ '/' ∉ c ∧ c ≠ ['.'] ∧ c ≠ ['.', '.'] := by
      intro c hc
      simp only [List.map_append, List.map_cons, List.map_nil, List.mem_append, List.mem_map,
        List.mem_singleton] at hc
      rcases hc with ⟨d, hd, rfl⟩ | rfl
      · exact (validName_iff d).mp (hcs d hd)
      · exact hn4
    have hmap : cs.map String.data ≠ [] := by simpa using hcs0
    have hcat : (pathStr cs).data ++ '/' :: n.data =
        ['/'].intercalate ((cs ++ [n]).map String.data) := by
      simp only [pathStr, hcs0, if_false, List.map_append, List.map_cons, List.map_nil]
      rw [intercalate_append_singleton _ _ _ hmap]
      simp
    have hpne : pathStr cs ≠ "" := by
      intro h
      have h2 := congrArg String.data h
      simp only [pathStr, hcs0, if_false] at h2
      obtain ⟨c, cs2, rfl⟩ := List.exists_cons_of_ne_nil hcs0
      have hc := ((validName_iff c).mp (hcs c (by simp))).1
      obtain ⟨x, xs, hx⟩ := List.exists_cons_of_ne_nil hc
      cases cs2 <;> simp [List.intercalate, hx] at h2
    simp only [filepathJoin, hpne, hnne, if_false, hcat]
    rw [cleanChars_intercalate _ (by simp) hv]
    simp [pathStr]

theorem compsOf_pathStr (cs : List String) (hcs : ∀ c ∈ cs, validName c = true) :
    compsOf (pathStr cs) = cs := by
  by_cases hcs0 : cs = []
  · subst hcs0; rfl
  · have hv : ∀ l ∈ cs.map String.data, '/' ∉ l := by
      intro l hl
      simp only [List.mem_map] at hl
      obtain ⟨d, hd, rfl⟩ := hl
      exact ((validName_iff d).mp (hcs d hd)).2.1
    have hmap : cs.map String.data ≠ [] := by simpa using hcs0
    have hsplit := List.splitOn_intercalate (cs.map String.data) '/' hv hmap
    have hne : pathStr cs ≠ "." := by
      intro h
      have h2 := congrArg String.data h
      simp only [pathStr, hcs0, if_false] at h2
      rw [h2] at hsplit
      have h3 : List.splitOn '/' (".":String).data = [['.']] := by decide
      rw [h3] at hsplit
      obtain ⟨c, cs2, rfl⟩ := List.exists_cons_of_ne_nil hcs0
      have hc := ((validName_iff c).mp (hcs c (by simp))).2.2.1
      simp only [List.map_cons, List.cons.injEq] at hsplit
      exact hc hsplit.1.symm
    simp only [compsOf, hne, if_false]
    simp only [pathStr, hcs0, if_false, hsplit, List.map_map]
    have : (String.mk ∘ String.data) = id := by
      funext s; rfl
    simp [this]

/-! ### The walk of the working copy -/

theorem queueDirs_append (qs rs : List (List String × Listing)) :
    queueDirs (qs ++ rs) = queueDirs qs + queueDirs rs := by
  induction qs with
  | nil => simp [queueDirs]
  | cons q qs ih => simp [queueDirs, ih]; omega

theorem queueFiles_append (qs rs : List (List String × Listing)) :
    queueFiles (qs ++ rs) = queueFiles qs ++ queueFiles rs := by
  induction qs with
  | nil => simp [queueFiles]
  | cons q qs ih => simp [queueFiles, ih]

theorem queueDirs_subdirs (cs : List String) (l : Listing) :
    queueDirs (l.subdirs.map fun d => (cs ++ [d.1], d.2)) = l.dirCount := by
  induction l with
  | nil => rfl
  | file n rest ih => simpa [Listing.subdirs, Listing.dirCount] using ih
  | dir n content rest _ ih =>
    simp only [Listing.subdirs, List.map_cons, queueDirs, ih, Listing.dirCount]

theorem allFiles_perm (cs : List String) (l : Listing) :
    (l.allFiles cs).Perm
      (l.fileNames.map (fun n => cs ++ [n]) ++
        queueFiles (l.subdirs.map fun d => (cs ++ [d.1], d.2))) := by
  induction l with
  | nil => simp [Listing.allFiles, Listing.fileNames, Listing.subdirs, queueFiles]
  | file n rest ih =>
    simp only [Listing.allFiles, Listing.fileNames, Listing.subdirs, List.map_cons,
      List.cons_append]
    exact List.Perm.cons _ ih
  | dir n content rest _ ih =>
    simp only [Listing.allFiles, Listing.fileNames, Listing.subdirs, List.map_cons, queueFiles]
    refine (List.Perm.append_left _ ih).trans ?_
    exact List.perm_append_comm_assoc _ _ _

theorem fold_infos {α : Type} (f : α → String → α) (cs : List String) (l : Listing)
    (hv : l.validNames = true) (hcs : ∀ c ∈ cs, validName c = true) :
    ∀ (queue : List String) (acc : α),
      l.infos.foldl
        (fun (st : List String × α) info =>
          let path := filepathJoin (pathStr cs) info.Name
          if info.IsDir then (st.1 ++ [path], st.2) else (st.1, f st.2 path))
        (queue, acc) =
      (queue ++ (l.subdirs.map fun d => pathStr (cs ++ [d.1])),
        (l.fileNames.map fun n => pathStr (cs ++ [n])).foldl f acc) := by
  induction l with
  | nil => intro queue acc; simp [Listing.infos, Listing.subdirs, Listing.fileNames]
  | file n rest ih =>
    intro queue acc
    simp only [Listing.validNames, Bool.and_eq_true] at hv
    simp only [Listing.infos, List.foldl_cons, Listing.subdirs, Listing.fileNames,
      List.map_cons, filepathJoin_pathStr cs n hcs hv.1]
    exact ih hv.2 queue _
  | dir n content rest _ ih =>
    intro queue acc
    simp only [Listing.validNames, Bool.and_eq_true] at hv
    simp only [Listing.infos, List.foldl_cons, Listing.subdirs, Listing.fileNames,
      List.map_cons, filepathJoin_pathStr cs n hcs hv.1.1, if_true]
    refine (ih hv.2 _ acc).trans ?_
    simp

theorem readsBelow_subdirs (fs : Filesystem) (cs : List String) (l : Listing)
    (hr : readsBelow fs cs l) :
    ∀ q ∈ (l.subdirs.map fun d => (cs ++ [d.1], d.2)),
      fs.ReadDir (pathStr q.1) = .ok q.2.infos ∧ readsBelow fs q.1 q.2 := by
  induction l with
  | nil => intro q hq; simp [Listing.subdirs] at hq
  | file n rest ih => exact ih hr
  | dir n content rest _ ih =>
    intro q hq
    simp only [Listing.subdirs, List.map_cons, List.mem_cons] at hq
    rcases hq with rfl | hq
    · exact hr.1
    · exact ih hr.2 q hq

theorem validNames_subdirs (cs : List String) (l : Listing) (hv : l.validNames = true)
    (hcs : ∀ c ∈ cs, validName c = true) :
    ∀ q ∈ (l.subdirs.map fun d => (cs ++ [d.1], d.2)),
      (∀ c ∈ q.1, validName c = true) ∧ q.2.validNames = true := by
  induction l with
  | nil => intro q hq; simp [Listing.subdirs] at hq
  | file n rest ih =>
    simp only [Listing.validNames, Bool.and_eq_true] at hv
    exact ih hv.2
  | dir n content rest _ ih =>
    intro q hq
    simp only [Listing.validNames, Bool.and_eq_true] at hv
    simp only [Listing.subdirs, List.map_cons, List.mem_cons] at hq
    rcases hq with rfl | hq
    · refine ⟨?_, hv.1.2⟩
      intro c hc
      simp only [List.mem_append, List.mem_singleton] at hc
      rcases hc with hc | rfl
      · exact hcs c hc
      · exact hv.1.1
    · exact ih hv.2 q hq

theorem walkFsLoop_queue (fs : Filesystem) :
    ∀ (n : Nat) (qs : List (List String × Listing)), queueDirs qs = n →
      (∀ q ∈ qs, fs.ReadDir (pathStr q.1) = .ok q.2.infos ∧ readsBelow fs q.1 q.2) →
      (∀ q ∈ qs, (∀ c ∈ q.1, validName c = true) ∧ q.2.validNames = true) →
      ∃ out : List String, out.Perm ((queueFiles qs).map pathStr) ∧
        ∀ (fuel : Nat), n ≤ fuel → ∀ (α : Type) (f : α → String → α) (acc : α),
          walkFsLoop fs f fuel (qs.map fun q => pathStr q.1) acc =
            some (out.foldl f acc, none) := by
  intro n
  induction n with
  | zero =>
    intro qs hn _ _
    cases qs with
    | nil =>
      refine ⟨[], by simp [queueFiles], ?_⟩
      intro fuel _ α f acc
      cases fuel <;> simp [walkFsLoop]
    | cons q qs => simp [queueDirs] at hn
  | succ n ih =>
    intro qs hn hr hv
    cases qs with
    | nil => simp [queueDirs] at hn
    | cons q qs =>
      obtain ⟨cs, l⟩ := q
      have hrq := hr (cs, l) (by simp)
      have hvq := hv (cs, l) (by simp)
      simp only at hrq hvq
      have hn2 : queueDirs (qs ++ l.subdirs.map fun d => (cs ++ [d.1], d.2)) = n := by
        rw [queueDirs_append, queueDirs_subdirs]
        simp only [queueDirs] at hn
        omega
      have hr2 : ∀ q ∈ qs ++ l.subdirs.map (fun d => (cs ++ [d.1], d.2)),
          fs.ReadDir (pathStr q.1) = .ok q.2.infos ∧ readsBelow fs q.1 q.2 := by
        intro q hq
        rcases List.mem_append.mp hq with hq | hq
        · exact hr q (by simp [hq])
        · exact readsBelow_subdirs fs cs l hrq.2 q hq
      have hv2 : ∀ q ∈ qs ++ l.subdirs.map (fun d => (cs ++ [d.1], d.2)),
          (∀ c ∈ q.1, validName c = true) ∧ q.2.validNames = true := by
        intro q hq
        rcases List.mem_append.mp hq with hq | hq
        · exact hv q (by simp [hq])
        · exact validNames_subdirs cs l hvq.2 hvq.1 q hq
      obtain ⟨out2, hperm, hrun⟩ := ih _ hn2 hr2 hv2
      refine ⟨(l.fileNames.map fun n => pathStr (cs ++ [n])) ++ out2, ?_, ?_⟩
      · simp only [queueFiles, List.map_append]
        have h1 := (allFiles_perm cs l).map pathStr
        simp only [List.map_append, List.map_map] at h1
        rw [queueFiles_append, List.map_append] at hperm
        refine ((h1.append_right _).trans ?_).symm
        rw [List.append_assoc]
        refine List.Perm.append_left _ ?_
        exact (hperm.trans List.perm_append_comm).symm
      · intro fuel hfuel α f acc
        obtain ⟨fuel2, rfl⟩ : ∃ k, fuel = k + 1 := ⟨fuel - 1, by omega⟩
        have hrun2 := hrun fuel2 (by omega) α f
          ((l.fileNames.map fun n => pathStr (cs ++ [n])).foldl f acc)
        simp only [List.map_cons, walkFsLoop, hrq.1, fold_infos f cs l hvq.2 hvq.1]
        simp only [List.map_append, List.map_map] at hrun2
        simp only [List.foldl_append]
        exact hrun2

theorem validNames_of_wellFormed (l : Listing) (h : l.wellFormed = true) :
    l.validNames = true := by
  induction l with
  | nil => rfl
  | file n rest ih =>
    simp only [Listing.wellFormed, Bool.and_eq_true] at h
    simp [Listing.validNames, h.1.1, ih h.2]
  | dir n content rest ihc ih =>
    simp only [Listing.wellFormed, Bool.and_eq_true] at h
    simp [Listing.validNames, h.1.1.1, ihc h.1.2, ih h.2]

theorem allFiles_form (l : Listing) :
    ∀ (cs p : List String), p ∈ l.allFiles cs →
      ∃ m tail, m ∈ l.names ∧ p = cs ++ m :: tail := by
  induction l with
  | nil => intro cs p hp; simp [Listing.allFiles] at hp
  | file n rest ih =>
    intro cs p hp
    simp only [Listing.allFiles, List.mem_cons] at hp
    rcases hp with rfl | hp
    · exact ⟨n, [], by simp [Listing.names], rfl⟩
    · obtain ⟨m, tail, hm, rfl⟩ := ih cs p hp
      exact ⟨m, tail, by simp [Listing.names, hm], rfl⟩
  | dir n content rest ihc ih =>
    intro cs p hp
    simp only [Listing.allFiles, List.mem_append] at hp
    rcases hp with hp | hp
    · obtain ⟨m, tail, _, rfl⟩ := ihc (cs ++ [n]) p hp
      exact ⟨n, m :: tail, by simp [Listing.names], by simp⟩
    · obtain ⟨m, tail, hm, rfl⟩ := ih cs p hp
      exact ⟨m, tail, by simp [Listing.names, hm], rfl⟩

theorem allDirs_form (l : Listing) :
    ∀ (cs p : List String), p ∈ l.allDirs cs →
      ∃ m tail, m ∈ l.names ∧ p = cs ++ m :: tail := by
  induction l with
  | nil => intro cs p hp; simp [Listing.allDirs] at hp
  | file n rest ih =>
    intro cs p hp
    simp only [Listing.allDirs] at hp
    obtain ⟨m, tail, hm, rfl⟩ := ih cs p hp
    exact ⟨m, tail, by simp [Listing.names, hm], rfl⟩
  | dir n content rest ihc ih =>
    intro cs p hp
    simp only [Listing.allDirs, List.mem_cons, List.mem_append] at hp
    rcases hp with rfl | hp | hp
    · exact ⟨n, [], by simp [Listing.names], rfl⟩
    · obtain ⟨m, tail, _, rfl⟩ := ihc (cs ++ [n]) p hp
      exact ⟨n, m :: tail, by simp [Listing.names], by simp⟩
    · obtain ⟨m, tail, hm, rfl⟩ := ih cs p hp
      exact ⟨m, tail, by simp [Listing.names, hm], rfl⟩

theorem allFiles_valid (l : Listing) :
    ∀ (cs p : List String), l.validNames = true → (∀ c ∈ cs, validName c = true) →
      p ∈ l.allFiles cs → ∀ c ∈ p, validName c = true := by
  induction l with
  | nil => intro cs p _ _ hp; simp [Listing.allFiles] at hp
  | file n rest ih =>
    intro cs p hv hcs hp c hc
    simp only [Listing.validNames, Bool.and_eq_true] at hv
    simp only [Listing.allFiles, List.mem_cons] at hp
    rcases hp with rfl | hp
    · simp only [List.mem_append, List.mem_singleton] at hc
      rcases hc with hc | rfl
      · exact hcs c hc
      · exact hv.1
    · exact ih cs p hv.2 hcs hp c hc
  | dir n content rest ihc ih =>
    intro cs p hv hcs hp c hc
    simp only [Listing.validNames, Bool.and_eq_true] at hv
    simp only [Listing.allFiles, List.mem_append] at hp
    rcases hp with hp | hp
    · refine ihc (cs ++ [n]) p hv.1.2 ?_ hp c hc
      intro d hd
      simp only [List.mem_append, List.mem_singleton] at hd
      rcases hd with hd | rfl
      · exact hcs d hd
      · exact hv.1.1
    · exact ih cs p hv.2 hcs hp c hc

theorem allDirs_valid (l : Listing) :
    ∀ (cs p : List String), l.validNames = true → (∀ c ∈ cs, validName c = true) →
      p ∈ l.allDirs cs → ∀ c ∈ p, validName c = true := by
  induction l with
  | nil => intro cs p _ _ hp; simp [Listing.allDirs] at hp
  | file n rest ih =>
    intro cs p hv hcs hp c hc
    simp only [Listing.validNames, Bool.and_eq_true] at hv
    simp only [Listing.allDirs] at hp
    exact ih cs p hv.2 hcs hp c hc
  | dir n content rest ihc ih =>
    intro cs p hv hcs hp c hc
    simp only [Listing.validNames, Bool.and_eq_true] at hv
    have hcn : ∀ d ∈ cs ++ [n], validName d = true := by
      intro d hd
      simp only [List.mem_append, List.mem_singleton] at hd
      rcases hd with hd | rfl
      · exact hcs d hd
      · exact hv.1.1
    simp only [Listing.allDirs, List.mem_cons, List.mem_append] at hp
    rcases hp with rfl | hp | hp
    · exact hcn c hc
    · exact ihc (cs ++ [n]) p hv.1.2 hcn hp c hc
    · exact ih cs p hv.2 hcs hp c hc

theorem wellFormed_file (n : String) (rest : Listing) :
    (Listing.file n rest).wellFormed = true ↔
      validName n = true ∧ n ∉ rest.names ∧ rest.wellFormed = true := by
  simp [Listing.wellFormed, and_assoc]

theorem wellFormed_dir (n : String) (content rest : Listing) :
    (Listing.dir n content rest).wellFormed = true ↔
      validName n = true ∧ n ∉ rest.names ∧ content.wellFormed = true ∧
        rest.wellFormed = true := by
  simp [Listing.wellFormed, and_assoc]

theorem allFiles_nodup (l : Listing) :
    ∀ cs : List String, l.wellFormed = true → (l.allFiles cs).Nodup := by
  induction l with
  | nil => intro cs _; simp [Listing.allFiles]
  | file n rest ih =>
    intro cs h
    rw [wellFormed_file] at h
    simp only [Listing.allFiles, List.nodup_cons]
    refine ⟨?_, ih cs h.2.2⟩
    intro hmem
    obtain ⟨m, tail, hm, heq⟩ := allFiles_form rest cs _ hmem
    simp only [List.append_cancel_left_eq, List.cons.injEq] at heq
    exact h.2.1 (heq.1 ▸ hm)
  | dir n content rest ihc ih =>
    intro cs h
    rw [wellFormed_dir] at h
    simp only [Listing.allFiles]
    refine List.Nodup.append (ihc _ h.2.2.1) (ih cs h.2.2.2) ?_
    intro p hp1 hp2
    obtain ⟨m1, t1, _, rfl⟩ := allFiles_form content _ p hp1
    obtain ⟨m2, t2, hm2, heq⟩ := allFiles_form rest cs _ hp2
    simp only [List.append_assoc, List.singleton_append, List.append_cancel_left_eq,
      List.cons.injEq] at heq
    exact h.2.1 (heq.1 ▸ hm2)

theorem allFiles_not_dir (l : Listing) :
    ∀ (cs p : List String), l.wellFormed = true → p ∈ l.allFiles cs → p ∉ l.allDirs cs := by
  induction l with
  | nil => intro cs p _ hp; simp [Listing.allFiles] at hp
  | file n rest ih =>
    intro cs p h hp hd
    rw [wellFormed_file] at h
    simp only [Listing.allFiles, List.mem_cons] at hp
    simp only [Listing.allDirs] at hd
    rcases hp with rfl | hp
    · obtain ⟨m, tail, hm, heq⟩ := allDirs_form rest cs _ hd
      simp only [List.append_cancel_left_eq, List.cons.injEq] at heq
      exact h.2.1 (heq.1 ▸ hm)
    · exact ih cs p h.2.2 hp hd
  | dir n content rest ihc ih =>
    intro cs p h hp hd
    rw [wellFormed_dir] at h
    simp only [Listing.allFiles, List.mem_append] at hp
    simp only [Listing.allDirs, List.mem_cons, List.mem_append] at hd
    rcases hp with hp | hp
    · obtain ⟨m1, t1, _, hp1⟩ := allFiles_form content _ p hp
      rcases hd with hd | hd | hd
      · rw [hd] at hp1
        simp at hp1
      · exact ihc _ p h.2.2.1 hp hd
      · obtain ⟨m2, t2, hm2, heq⟩ := allDirs_form rest cs p hd
        rw [hp1] at heq
        simp only [List.append_assoc, List.singleton_append, List.append_cancel_left_eq,
          List.cons.injEq] at heq
        exact h.2.1 (heq.1 ▸ hm2)
    · obtain ⟨m1, t1, hm1, hp1⟩ := allFiles_form rest cs p hp
      rcases hd with hd | hd | hd
      · rw [hd] at hp1
        simp only [List.append_cancel_left_eq, List.cons.injEq] at hp1
        exact h.2.1 (hp1.1 ▸ hm1)
      · obtain ⟨m2, t2, _, heq⟩ := allDirs_form content _ p hd
        rw [hp1] at heq
        simp only [List.append_assoc, List.singleton_append, List.append_cancel_left_eq,
          List.cons.injEq] at heq
        exact h.2.1 (heq.1 ▸ hm1)
      · exact ih cs p h.2.2.2 hp hd

theorem foldl_snoc (out : List String) :
    ∀ acc : List String, out.foldl (fun paths name => paths ++ [name]) acc = acc ++ out := by
  induction out with
  | nil => intro acc; simp
  | cons x xs ih => intro acc; simp [ih]

/-- C10: for every finite directory tree with valid, pairwise distinct entry names that
the working copy holds (every directory read succeeds and returns the entries of the
tree), the walk from the root `"."` with enough fuel (the number of directories)
terminates without error; the callback is called once for each path of a sequence `out`
that is a permutation of the root-relative paths of the non-directory entries of the
tree, has no duplicates, and contains the path of no directory (nor of the root); and
`listFromWorktree`, hence `List` under the sentinel revision, returns `out`. -/
theorem C10_walkFs_lists_files {σ : Type} (E : Engine σ) (g : σ) (t : Listing)
    (ctx : Context) (hw : E.Worktree g = none) (hwf : t.wellFormed = true)
    (ht : holdsTree { ReadDir := E.ReadDir g } t) (hc : CommitFromContext ctx = "HEAD") :
    ∃ out : List String,
      (∀ fuel : Nat, t.dirCount + 1 ≤ fuel →
        (∀ (α : Type) (f : α → String → α) (acc : α),
          walkFs { ReadDir := E.ReadDir g } "." f acc fuel = some (out.foldl f acc, none)) ∧
        gitRepo.listFromWorktree E g fuel = some (.ok out) ∧
        gitRepo.List E g ctx fuel = some (.ok out)) ∧
      out.Perm ((t.allFiles []).map pathStr) ∧
      out.Nodup ∧
      (∀ d ∈ t.allDirs [], pathStr d ∉ out) ∧
      "." ∉ out := by
  have hv := validNames_of_wellFormed t hwf
  obtain ⟨out, hperm, hrun⟩ := walkFsLoop_queue { ReadDir := E.ReadDir g } (t.dirCount + 1)
    [([], t)] (by simp [queueDirs]; omega)
    (by
      intro q hq
      simp only [List.mem_singleton] at hq
      subst hq
      exact ht)
    (by
      intro q hq
      simp only [List.mem_singleton] at hq
      subst hq
      exact ⟨by simp, hv⟩)
  simp only [queueFiles, List.append_nil] at hperm
  have hinj : ∀ p ∈ t.allFiles [], ∀ q : List String, (∀ c ∈ q, validName c = true) →
      pathStr p = pathStr q → p = q := by
    intro p hp q hq heq
    have h1 := compsOf_pathStr p (allFiles_valid t [] p hv (by simp) hp)
    have h2 := compsOf_pathStr q hq
    rw [← h1, ← h2, heq]
  have hwalk : ∀ fuel : Nat, t.dirCount + 1 ≤ fuel →
      ∀ (α : Type) (f : α → String → α) (acc : α),
        walkFs { ReadDir := E.ReadDir g } "." f acc fuel = some (out.foldl f acc, none) := by
    intro fuel hfuel α f acc
    have := hrun fuel hfuel α f acc
    simpa [walkFs, pathStr] using this
  have hlist : ∀ fuel : Nat, t.dirCount + 1 ≤ fuel →
      gitRepo.listFromWorktree E g fuel = some (.ok out) := by
    intro fuel hfuel
    simp only [gitRepo.listFromWorktree, gitRepo.fs, hw, hwalk fuel hfuel, foldl_snoc,
      List.nil_append]
  refine ⟨out, ?_, hperm, ?_, ?_, ?_⟩
  · intro fuel hfuel
    refine ⟨hwalk fuel hfuel, hlist fuel hfuel, ?_⟩
    have hh : Commit.IsHead (CommitFromContext ctx) = true := by
      rw [hc]; rfl
    simp only [gitRepo.List, hh, Bool.not_true]
    exact hlist fuel hfuel
  · rw [hperm.nodup_iff]
    refine List.Nodup.map_on ?_ (allFiles_nodup t [] hwf)
    intro p hp q hq heq
    exact hinj p hp q (allFiles_valid t [] q hv (by simp) hq) heq
  · intro d hd hmem
    have hmem2 := hperm.mem_iff.mp hmem
    simp only [List.mem_map] at hmem2
    obtain ⟨p, hp, heq⟩ := hmem2
    have := hinj p hp d (allDirs_valid t [] d hv (by simp) hd) heq
    exact allFiles_not_dir t [] p hwf hp (this ▸ hd)
  · intro hmem
    have hmem2 := hperm.mem_iff.mp hmem
    simp only [List.mem_map] at hmem2
    obtain ⟨p, hp, heq⟩ := hmem2
    have h0 := hinj p hp [] (by simp) heq
    obtain ⟨m, tail, _, hform⟩ := allFiles_form t [] p hp
    rw [h0] at hform
    simp at hform

/-- Witness of C10: the working copy of `repoTest` after its first commit. -/
theorem C10_walkFs_lists_files_witness :
    (exEngine.Worktree exCommitted = none ∧ exTree.wellFormed = true ∧
      holdsTree { ReadDir := exEngine.ReadDir exCommitted } exTree ∧
      CommitFromContext Context.todo = "HEAD") ∧
    gitRepo.List exEngine exCommitted Context.todo 2 =
      some (.ok ["test.txt", "dir/test.txt"]) ∧
    ∃ out : List String,
      (∀ fuel : Nat, exTree.dirCount + 1 ≤ fuel →
        (∀ (α : Type) (f : α → String → α) (acc : α),
          walkFs { ReadDir := exEngine.ReadDir exCommitted } "." f acc fuel =
            some (out.foldl f acc, none)) ∧
        gitRepo.listFromWorktree exEngine exCommitted fuel = some (.ok out) ∧
        gitRepo.List exEngine exCommitted Context.todo fuel = some (.ok out)) ∧
      out.Perm ((exTree.allFiles []).map pathStr) ∧
      out.Nodup ∧
      (∀ d ∈ exTree.allDirs [], pathStr d ∉ out) ∧
      "." ∉ out :=
  ⟨⟨rfl, by decide, ⟨rfl, ⟨rfl, trivial⟩, trivial⟩, rfl⟩, by rfl,
    C10_walkFs_lists_files exEngine exCommitted exTree Context.todo rfl (by decide)
      ⟨rfl, ⟨rfl, trivial⟩, trivial⟩ rfl⟩

end Sensei
